import Mathlib

/-!
Shallow embedding of the core of the `ecifr` repository
(`src/reproduce_evaluation_data/src/first_party_modules/ssplit.py` and
`src/reproduce_evaluation_data/src/scraping.py`) together with theorems
settling the claims about it.  Texts are modelled as `List Char`, Python
ints as `Int`/`Nat`, floats (pdfminer coordinates) as `ℚ`, and Python's
banker's rounding as an explicit round-half-to-even on `ℚ`.
-/

namespace ECIFR

/-! ### ssplit.py: character tables (lines 3-15) -/

/-- `PARENTHESIS2ALTERNATIVE` (ssplit.py lines 3-12): the per-symbol placeholder
for each bracket / quotation character.  The Python dict raises on other keys;
it is only ever applied to the eight bracket characters, so other characters
are mapped to themselves here. -/
def toAlt (c : Char) : Char :=
  if c = '（' then 'ω' else if c = '(' then 'ψ'
  else if c = '「' then 'χ' else if c = '“' then 'φ'
  else if c = '）' then 'υ' else if c = ')' then 'τ'
  else if c = '」' then 'σ' else if c = '”' then 'ρ' else c

/-- `ALTERNATIVE2PARENTHESIS` (ssplit.py lines 13-15) as used by
`str.translate`: placeholders are mapped back to their bracket symbol, every
other character is left unchanged. -/
def altTr (c : Char) : Char :=
  if c = 'ω' then '（' else if c = 'ψ' then '('
  else if c = 'χ' then '「' else if c = 'φ' then '“'
  else if c = 'υ' then '）' else if c = 'τ' then ')'
  else if c = 'σ' then '」' else if c = 'ρ' then '”' else c

/-- The eight placeholder characters (values of `PARENTHESIS2ALTERNATIVE`). -/
def placeholders : List Char := ['ω', 'ψ', 'χ', 'φ', 'υ', 'τ', 'σ', 'ρ']

/-- Membership in the opener set `{"（", "(", "「", "“"}` (ssplit.py line 75). -/
def isOpener (c : Char) : Bool := c == '（' || c == '(' || c == '「' || c == '“'

/-- Membership in the closer set `{"）", ")", "」", "”"}` (ssplit.py line 77). -/
def isCloser (c : Char) : Bool := c == '）' || c == ')' || c == '」' || c == '”'

/-- The opener/closer compatibility test of `_balance` (ssplit.py lines 81-90):
`o` is a pending opener, `c` the closer being scanned. -/
def compatB (o c : Char) : Bool :=
  (o == '（' && (c == '）' || c == ')')) ||
  (o == '(' && (c == '）' || c == ')')) ||
  (o == '「' && c == '」') ||
  (o == '“' && c == '”')

/-! ### ssplit.py: `_balance` (lines 59-99)

The Python `stack` is a dict from index to character, iterated in reverse
sorted key order.  Since indices are pushed in increasing order we model it as
a list of `(index, char)` pairs with the largest index at the head; deleting
the first compatible entry found when scanning from the head is exactly
`sorted(stack.items(), reverse=True)` followed by `del stack[key]; break`. -/

/-- Remove the first (i.e. largest-index) entry of the stack compatible with
closer `c`; `none` when no entry is compatible. -/
def removeFirstCompat (c : Char) : List (Nat × Char) → Option (List (Nat × Char))
  | [] => none
  | e :: st =>
    if compatB e.2 c then some st
    else (removeFirstCompat c st).map (fun st2 => e :: st2)

/-- The scanning loop of `_balance` (ssplit.py lines 74-94) over the enumerated
text.  Returns the final stack (unmatched openers, with their indices) and the
list of indices of closers that arrived while the stack was empty (those were
replaced in place by `balanced[idx] = PARENTHESIS2ALTERNATIVE[char]`). -/
def balScan : List (Nat × Char) → List (Nat × Char) → List Nat →
    List (Nat × Char) × List Nat
  | [], st, rp => (st, rp)
  | (i, c) :: rest, st, rp =>
    if isOpener c then balScan rest ((i, c) :: st) rp
    else if isCloser c then
      if st.isEmpty then balScan rest st (i :: rp)
      else
        match removeFirstCompat c st with
        | some st2 => balScan rest st2 rp
        | none => balScan rest st rp
    else balScan rest st rp

/-- The position-wise replacement realising `balanced[idx] = ...` (line 94) and
the final loop over the leftover stack (lines 96-97): position `i` is replaced
by its placeholder exactly when `i` is a recorded closer index or the index of
a leftover opener. -/
def outMap (st : List (Nat × Char)) (rp : List Nat) (l : List (Nat × Char)) :
    List Char :=
  l.map (fun p => if rp.contains p.1 || st.any (fun e => e.1 == p.1)
    then toAlt p.2 else p.2)

/-- `_balance` (ssplit.py lines 59-99). -/
def _balance (t : List Char) : List Char :=
  let s := balScan t.enum [] []
  outMap s.1 s.2 t.enum

/-! ### Re-scanning the balanced output

The claims speak of "re-scanning the output after placeholder substitution":
running the same matching discipline again over the produced string and
counting the bracket characters that stay unmatched.  Openers are pushed;
a closer removes the nearest compatible pending opener and is counted as
unmatched when no pending opener is compatible.  Openers still pending at the
end of the scan are the unmatched openers. -/

/-- Remove the first compatible pending opener (stack of characters). -/
def removeFirstCompatC (c : Char) : List Char → Option (List Char)
  | [] => none
  | o :: st =>
    if compatB o c then some st
    else (removeFirstCompatC c st).map (fun st2 => o :: st2)

/-- Re-scan state: pending openers and count of unmatched closers. -/
def rescan : List Char → List Char → Nat → List Char × Nat
  | [], st, u => (st, u)
  | c :: rest, st, u =>
    if isOpener c then rescan rest (c :: st) u
    else if isCloser c then
      match removeFirstCompatC c st with
      | some st2 => rescan rest st2 u
      | none => rescan rest st (u + 1)
    else rescan rest st u

/-- Number of openers left unmatched when re-scanning `s` from scratch. -/
def unmatchedOpeners (s : List Char) : Nat := (rescan s [] 0).1.length

/-- Number of closers found unmatched when re-scanning `s` from scratch. -/
def unmatchedClosers (s : List Char) : Nat := (rescan s [] 0).2

example : _balance "これは文（テスト）です。".data = "これは文（テスト）です。".data := by decide
example : _balance "「)".data = "χ)".data := by decide
example : unmatchedClosers (_balance "「)".data) = 1 := by decide
example : unmatchedOpeners (_balance "「)".data) = 0 := by decide

/-! ### ssplit.py: candidate generation (`_ssplit_regex`, lines 38-56)

`re.findall("[^。]*。|[^。]*$", s)` partitions `s` into maximal runs of
non-`。` characters each terminated by a `。`, followed by the (possibly
empty) remainder after the last `。`, followed — whenever that remainder is
non-empty — by one final empty match of `[^。]*$` at the end of the string.
`reFindallAux` scans `s` accumulating the current run in reverse. -/

def reFindallAux : List Char → List Char → List (List Char)
  | cur, [] => if cur = [] then [[]] else [cur.reverse, []]
  | cur, c :: rest =>
    if c = '。' then (cur.reverse ++ ['。']) :: reFindallAux [] rest
    else reFindallAux (c :: cur) rest

/-- `re.findall(_regex, s)` for `_regex = "[^。]*。|[^。]*$"` (line 51). -/
def reFindall (s : List Char) : List (List Char) := reFindallAux [] s

/-- Python `str.split("\n")` (line 53): separator-delimited pieces, empty
pieces kept, `""` splitting to `[""]`. -/
def pySplitNlAux : List Char → List Char → List (List Char)
  | cur, [] => [cur.reverse]
  | cur, c :: rest =>
    if c = '\n' then cur.reverse :: pySplitNlAux [] rest
    else pySplitNlAux (c :: cur) rest

def pySplitNl (t : List Char) : List (List Char) := pySplitNlAux [] t

/-! ### ssplit.py: `_merge_single_periods` (lines 119-142) -/

/-- `re.match(r"^。$", s)`: the pattern matches `"。"` exactly, and — because
`$` also matches just before a single trailing newline — `"。\n"`.  (The
second form can never reach this function through `_ssplit_regex`, whose
candidates ending in `。` contain no newline.) -/
def isSinglePeriod (s : List Char) : Bool := s == ['。'] || s == ['。', '\n']

/-- The accumulation loop of `_merge_single_periods`, with the accumulated
sentences kept in reverse.  The accumulator starts as `[[]]` (the dummy
sentence `""`), so it is never empty; the impossible empty case returns the
input unchanged. -/
def mspLoop : List (List Char) → List (List Char) → List (List Char)
  | acc, [] => acc.reverse
  | acc, c :: rest =>
    if isSinglePeriod c then
      match acc with
      | last :: before => mspLoop ((last ++ c) :: before) rest
      | [] => mspLoop [c] rest
    else mspLoop (c :: acc) rest

/-- `_merge_single_periods` (ssplit.py lines 119-142): merged list starting
from the dummy `""`, which is popped at the end when still empty. -/
def _merge_single_periods (cands : List (List Char)) : List (List Char) :=
  match mspLoop [[]] cands with
  | [] :: t => t
  | m => m

/-! ### ssplit.py: `_merge_parenthesis` (lines 145-189)

The Python loop pops candidates from the front and can push the remainder of
a newline-split candidate back; the recursion is driven by a fuel counter that
strictly decreases on every step.  `_merge_parenthesis` supplies one unit of
fuel per remaining character plus one per remaining candidate plus one, which
is more than the loop can consume (every iteration removes a candidate or
drops a newline character), so the fuel-exhausted fallback — which flushes the
pending candidate and returns the remainder unprocessed — is never reached. -/

/-- Net parenthesis count of a candidate (lines 165-166). -/
def lvlP (s : List Char) : Int :=
  ((s.count '（' : Int) + s.count '(') - ((s.count '）' : Int) + s.count ')')

/-- Net quotation count of a candidate (lines 168-169). -/
def lvlQ (s : List Char) : Int :=
  ((s.count '「' : Int) + s.count '“') - ((s.count '」' : Int) + s.count '”')

def mergeParenFuel : Nat → Int → Int → List Char → List (List Char) →
    List (List Char) → List (List Char)
  | 0, _, _, pend, acc, rem => acc.reverse ++ (if pend = [] then [] else [pend]) ++ rem
  | fuel + 1, p, q, pend, acc, rem =>
    match rem with
    | [] => (if pend = [] then acc else pend :: acc).reverse
    | c :: rest =>
      let p2 := p + lvlP c
      let q2 := q + lvlQ c
      if p2 = 0 ∧ q2 = 0 then
        mergeParenFuel fuel 0 0 [] ((pend ++ c) :: acc) rest
      else if c.contains '\n' then
        let c1 := c.takeWhile (fun x => x ≠ '\n')
        let r := (c.dropWhile (fun x => x ≠ '\n')).drop 1
        mergeParenFuel fuel 0 0 [] ((pend ++ c1) :: acc) (r :: rest)
      else
        mergeParenFuel fuel p2 q2 (pend ++ c) acc rest

/-- Total length of the candidates plus their number, plus one: strictly more
fuel than `_merge_parenthesis` can use. -/
def mpFuel (cands : List (List Char)) : Nat :=
  cands.foldr (fun s a => s.length + a) 0 + cands.length + 1

/-- `_merge_parenthesis` (ssplit.py lines 145-189). -/
def _merge_parenthesis (cands : List (List Char)) : List (List Char) :=
  mergeParenFuel (mpFuel cands) 0 0 [] [] cands

/-- `_merge_sentence_candidates` (ssplit.py lines 102-116). -/
def _merge_sentence_candidates (cands : List (List Char)) : List (List Char) :=
  _merge_parenthesis (_merge_single_periods cands)

/-- `_clean_up_sentence_candidates` (ssplit.py lines 192-208): drop empty
candidates, translate placeholders back. -/
def _clean_up_sentence_candidates (cands : List (List Char)) : List (List Char) :=
  (cands.filter (fun c => ¬ c = [])).map (fun c => c.map altTr)

/-- `_ssplit_regex` (ssplit.py lines 38-56). -/
def _ssplit_regex (t : List Char) : List (List Char) :=
  let balanced := _balance t
  let cands := (pySplitNl balanced).flatMap (fun line => reFindall (line ++ ['\n']))
  _clean_up_sentence_candidates (_merge_sentence_candidates cands)

/-- `ssplit` with the default `model="regex"` (ssplit.py lines 18-35). -/
def ssplit (t : List Char) : List (List Char) := _ssplit_regex t

example :
    ssplit "これは文（テスト）です。次の文。".data =
      ["これは文（テスト）です。".data, "次の文。".data, ['\n']] := by decide
example : ssplit "ω".data = [['（', '\n']] := by decide
example : ssplit "a\nbです。c".data = ["a\n".data, "bです。".data, "c\n".data] := by decide

/-! ### scraping.py: rounding and rectangles

pdfminer coordinates are floats, modelled as `ℚ`; Python's built-in `round`
rounds half to even. -/

/-- Python `round` on a rational: round half to even. -/
def pyRound (x : ℚ) : ℤ :=
  let f := ⌊x⌋
  let r := x - f
  if r < 1 / 2 then f
  else if 1 / 2 < r then f + 1
  else if Even f then f else f + 1

example : pyRound (1 / 2) = 0 := by with_unfolding_all decide
example : pyRound (3 / 2) = 2 := by with_unfolding_all decide
example : pyRound (-1 / 2) = 0 := by with_unfolding_all decide
example : pyRound (-3 / 2) = -2 := by with_unfolding_all decide
example : pyRound (11 / 2) = 6 := by with_unfolding_all decide

/-- A candidate rectangle `(x0, y0, x1, y1)` in page coordinates
(scraping.py works with 4-tuples of rounded ints). -/
structure Box where
  x0 : ℤ
  y0 : ℤ
  x1 : ℤ
  y1 : ℤ
deriving DecidableEq, Repr

/-- The overlap test of `Page.aggregate_rects` (scraping.py line 112):
`max(x0, box[0]) <= min(x1, box[2]) and max(y0, box[1]) <= min(y1, box[3])`. -/
def overlap (a b : Box) : Bool :=
  decide (max a.x0 b.x0 ≤ min a.x1 b.x1) && decide (max a.y0 b.y0 ≤ min a.y1 b.y1)

/-- A rectangle with ordered corners; such a rectangle overlaps itself. -/
def WfBox (r : Box) : Prop := r.x0 ≤ r.x1 ∧ r.y0 ≤ r.y1

instance : DecidablePred WfBox := fun _ => instDecidableAnd

/-- `zip(*overlapped)` followed by `(min(x0s), min(y0s), max(x1s), max(y1s))`
(scraping.py lines 115-116).  The Python unpacking raises on an empty list;
`aggregate_rects` only applies it to a list containing the freshly appended
rectangle, so the empty case (mapped to a zero box here) is unreachable for
self-overlapping rectangles. -/
def boundingUnion : List Box → Box
  | [] => ⟨0, 0, 0, 0⟩
  | b :: bs =>
    ⟨bs.foldl (fun m x => min m x.x0) b.x0,
     bs.foldl (fun m x => min m x.y0) b.y0,
     bs.foldl (fun m x => max m x.x1) b.x1,
     bs.foldl (fun m x => max m x.y1) b.y1⟩

/-- One iteration of the accumulation loop of `Page.aggregate_rects`
(scraping.py lines 110-116) for an accepted rectangle: append it, collect
every box it overlaps, drop those, append their bounding union. -/
def aggStep (boxes : List Box) (rect : Box) : List Box :=
  let boxes1 := boxes ++ [rect]
  let overlapped := boxes1.filter (fun b => overlap rect b)
  let kept := boxes1.filter (fun b => ¬ b ∈ overlapped)
  kept ++ [boundingUnion overlapped]

/-- The distinct horizontal edges recorded at height `y` (scraping.py lines
100-103): the set `y2xs[y]`, built from every rectangle whose `range(y0, y1+1)`
contains `y`, modelled as a duplicate-free list (its length is the set size). -/
def xsAt (rects : List Box) (y : ℤ) : List ℤ :=
  ((rects.filter (fun r => decide (r.y0 ≤ y) && decide (y ≤ r.y1))).flatMap
    (fun r => [r.x0, r.x1])).dedup

/-- The vertical midpoint `round((y0 + y1) / 2)` of a rectangle (line 108). -/
def midY (r : Box) : ℤ := pyRound (((r.y0 : ℚ) + (r.y1 : ℚ)) / 2)

/-- The degenerate-rectangle test (line 108): skip when at most two distinct
horizontal edges are recorded at the vertical midpoint. -/
def acceptRect (rects : List Box) (r : Box) : Bool :=
  ¬ (xsAt rects (midY r)).length ≤ 2

/-- `Page.aggregate_rects` (scraping.py lines 98-117). -/
def aggregate_rects (rects : List Box) : List Box :=
  rects.foldl (fun boxes r => if acceptRect rects r then aggStep boxes r else boxes) []

example :
    aggregate_rects [⟨0, 0, 1, 10⟩, ⟨5, 5, 6, 6⟩, ⟨0, 0, 10, 1⟩] =
      [⟨5, 5, 6, 6⟩, ⟨0, 0, 10, 10⟩] := by with_unfolding_all decide
example :
    aggregate_rects [⟨0, 0, 10, 1⟩, ⟨0, 0, 1, 10⟩, ⟨5, 5, 6, 6⟩] =
      [⟨0, 0, 10, 10⟩] := by with_unfolding_all decide

/-! ### scraping.py: `Page.extract_rects` (lines 75-96)

The pdfminer layout tree is modelled by `Layout`.  `isinstance(layout,
LTCurve)` is true both for a bare `LTCurve` (whose bounding rectangle is the
bounding box of its `pts`, per `type(curve) == LTCurve` in `curve2rect`) and
for the `LTRect`/`LTLine` subclasses (whose stored corners are used).
`isinstance(layout, LTContainer)` is the `container` case; every other node
contributes nothing.  The `for child in layout` loop is the mutually recursive
`extractRectsList`. -/

inductive Layout where
  | curve (pts : List (ℚ × ℚ))
  | rectOrLine (x0 y0 x1 y1 : ℚ)
  | container (children : List Layout)
  | leafOther
deriving Repr

/-- Minimum of a rational list with a starting value. -/
def minQ (a : ℚ) (l : List ℚ) : ℚ := l.foldl min a

/-- Maximum of a rational list with a starting value. -/
def maxQ (a : ℚ) (l : List ℚ) : ℚ := l.foldl max a

/-- `Page.curve2rect` (scraping.py lines 90-96): bounding box of the vertex
list for a bare curve (the `try` block's `IndexError` path — an empty vertex
list — yields no rectangle), stored corners for a rectangle/line node. -/
def curve2rect : Layout → Option Box
  | .curve [] => none
  | .curve ((x, y) :: pts) =>
    some ⟨pyRound (minQ x (pts.map Prod.fst)), pyRound (minQ y (pts.map Prod.snd)),
          pyRound (maxQ x (pts.map Prod.fst)), pyRound (maxQ y (pts.map Prod.snd))⟩
  | .rectOrLine x0 y0 x1 y1 => some ⟨pyRound x0, pyRound y0, pyRound x1, pyRound y1⟩
  | _ => none

/-- The page-border filter of `extract_rects` (line 79): keep the rectangle
when `rect[2] - rect[0] < width * 5 / 6 or rect[3] - rect[1] < height * 5 / 6`. -/
def keepRect (W H : ℚ) (r : Box) : Bool :=
  decide (((r.x1 : ℚ) - (r.x0 : ℚ)) < W * 5 / 6) ||
  decide (((r.y1 : ℚ) - (r.y0 : ℚ)) < H * 5 / 6)

/-- The `isinstance(layout, LTCurve)` branch of `extract_rects` (lines
76-82): convert the curve to a rectangle and keep it unless it is a page
border; the `IndexError` path contributes nothing. -/
def curveContribution (W H : ℚ) (l : Layout) : List Box :=
  match curve2rect l with
  | some r => if keepRect W H r then [r] else []
  | none => []

mutual

/-- `Page.extract_rects` (scraping.py lines 75-88) on a page of width `W` and
height `H`. -/
def extract_rects (W H : ℚ) : Layout → List Box
  | .curve pts => curveContribution W H (.curve pts)
  | .rectOrLine x0 y0 x1 y1 => curveContribution W H (.rectOrLine x0 y0 x1 y1)
  | .container children => extractRectsList W H children
  | .leafOther => []

/-- The `for child in layout: instances.extend(...)` loop of `extract_rects`. -/
def extractRectsList (W H : ℚ) : List Layout → List Box
  | [] => []
  | c :: cs => extract_rects W H c ++ extractRectsList W H cs

end

example :
    extract_rects 60 60 (.container [.rectOrLine 0 0 55 10, .rectOrLine 0 0 55 55]) =
      [⟨0, 0, 55, 10⟩] := by with_unfolding_all decide

/-! ### scraping.py: `Page.aggregate_text_lines`, x-axis pass (lines 52-68)

Given the glyphs of one y-cluster, the inner loop walks them sorted by `x0`
and keeps an insertion-ordered dict from rounded `x0` to glyph.  When the gap
to the previously stored key is at most a quarter of the current glyph's
width, the PREVIOUS glyph is popped and re-stored under the new key — the
current glyph is discarded.  `dict.pop(prev)` raises `KeyError` when `prev`
is absent (only possible on the first glyph against the sentinel key
1000000); that path is modelled by `none`. -/

structure Glyph where
  x0 : ℚ
  width : ℚ
  ch : Char
deriving DecidableEq, Repr

/-- Insertion-ordered dict assignment `d[k] = v`: overwrite in place when the
key exists, else append. -/
def odInsert (m : List (ℤ × Glyph)) (k : ℤ) (v : Glyph) : List (ℤ × Glyph) :=
  if m.any (fun p => p.1 == k) then
    m.map (fun p => if p.1 == k then (k, v) else p)
  else m ++ [(k, v)]

/-- `dict.pop(k)`: the stored value and the dict without the key. -/
def odPop (m : List (ℤ × Glyph)) (k : ℤ) : Option (Glyph × List (ℤ × Glyph)) :=
  match m.find? (fun p => p.1 == k) with
  | none => none
  | some p => some (p.2, m.filter (fun q => ¬ q.1 == k))

/-- Python `sorted(chars, key=lambda x: x.x0)`: stable insertion into the
already-sorted tail. -/
def insX (g : Glyph) : List Glyph → List Glyph
  | [] => [g]
  | h :: t => if decide (g.x0 ≤ h.x0) then g :: h :: t else h :: insX g t

def sortByX0 : List Glyph → List Glyph
  | [] => []
  | g :: gs => insX g (sortByX0 gs)

/-- The x-axis dedup loop (scraping.py lines 53-60). -/
def xLoop : List Glyph → List (ℤ × Glyph) → ℤ → Option (List (ℤ × Glyph))
  | [], m, _ => some m
  | g :: rest, m, prev =>
    let x0 := pyRound g.x0
    if decide (|(prev : ℚ) - (x0 : ℚ)| ≤ g.width / 4) then
      match odPop m prev with
      | none => none
      | some vm => xLoop rest (odInsert vm.2 x0 vm.1) x0
    else xLoop rest (odInsert m x0 g) x0

/-- `chars = [*x2char.values()]` (line 61) after the x-axis pass over one
y-cluster's glyph list, starting from the sentinel `prev = 1000000`. -/
def clusterChars (gs : List Glyph) : Option (List Glyph) :=
  (xLoop (sortByX0 gs) [] 1000000).map (fun m => m.map (fun p => p.2))

/-- The cluster's contribution to the line text
(`"".join(char.get_text().strip() for char in chars)`, line 65); glyphs kept
by `Page.valid` decode to exactly one character. -/
def clusterText (gs : List Glyph) : Option (List Char) :=
  (clusterChars gs).map (fun l => l.map (fun g => g.ch))

example : clusterText [⟨10, 4, 'A'⟩, ⟨11, 4, 'B'⟩] = some ['A'] := by
  with_unfolding_all decide
example : clusterText [⟨10, 4, 'A'⟩, ⟨13, 4, 'B'⟩] = some ['A', 'B'] := by
  with_unfolding_all decide

/-! ### scraping.py: `get_qualitative_information` (lines 163-219)

A page is modelled by its `text` and the texts of its `text_lines`; these are
the only fields the function reads or writes.  As constructed by
`Page.__init__`, `text` is the concatenation of the line texts. -/

structure SPage where
  text : List Char
  lines : List (List Char)
deriving DecidableEq, Repr

structure Sections where
  precede : List SPage
  qualitative : List SPage
  succeed : List SPage
deriving DecidableEq, Repr

/-- Python `str.find`: index of the first occurrence of `q` in `s`, `none`
standing for `-1`. -/
def findSub (s q : List Char) : Option Nat :=
  if q.isPrefixOf s then some 0
  else
    match s with
    | [] => none
    | _ :: rest => (findSub rest q).map (fun n => n + 1)

example : findSub "ab財政cd".data "財政".data = some 2 := by decide
example : findSub "abcd".data "財政".data = none := by decide

/-- The heading-phrase list (scraping.py lines 185-191), in priority order. -/
def queries : List (List Char) :=
  ["財政状態に関する".data, "財政状態の".data, "将来予測情報に関する".data,
   "業績予想に関する".data, "今後の見通し".data]

/-- Acceptance of one query on one page (scraping.py lines 192-201):
`isFirst` is `idx == 0`.  On the first scanned page the match is accepted when
its offset exceeds 150 ("3 lines"), or else when the phrase occurs again after
the end of the first occurrence, in which case the second occurrence's offset
is used; on later pages the first occurrence is accepted as is. -/
def acceptQ (isFirst : Bool) (text q : List Char) : Option Nat :=
  match findSub text q with
  | none => none
  | some k0 =>
    if isFirst then
      if 150 < k0 then some k0
      else
        match findSub (text.drop (k0 + q.length)) q with
        | some a => some (k0 + q.length + a)
        | none => none
    else some k0

/-- The `for query in [...]` loop (lines 185-201): the first query accepted
on this page wins; a query that is found but rejected by the first-page
conditions falls through to the next query. -/
def tryPage (isFirst : Bool) (text : List Char) : Option Nat :=
  queries.foldr (fun q acc => match acceptQ isFirst text q with
    | some k => some k
    | none => acc) none

/-- The outer page scan (lines 178-201): the first page on which `tryPage`
accepts, together with that page and the accepted character offset. -/
def scanPages : Nat → List SPage → Option (Nat × SPage × Nat)
  | _, [] => none
  | i, p :: rest =>
    match tryPage (i == 0) p.text with
    | some k => some (i, p, k)
    | none => scanPages (i + 1) rest

/-- The table-of-contents scan (scraping.py lines 164-168): index of the
first page whose text contains `"目次"`, defaulting to 1. -/
def tocIdxGo : Nat → List SPage → Nat
  | _, [] => 1
  | i, p :: rest => if (findSub p.text "目次".data).isSome then i else tocIdxGo (i + 1) rest

def tocIdx (pages : List SPage) : Nat := tocIdxGo 0 pages

/-- `char_idx2text_line_idx` (scraping.py lines 207-211): line index repeated
once per character of that line, built with a running line index. -/
def lineIdxFlatten : Nat → List (List Char) → List Nat
  | _, [] => []
  | i, l :: ls => l.map (fun _ => i) ++ lineIdxFlatten (i + 1) ls

/-- `get_qualitative_information` (scraping.py lines 163-219). -/
def get_qualitative_information (pages : List SPage) : Sections :=
  let t := tocIdx pages
  let pre := pages.take (t + 1)
  let rest := pages.drop (t + 1)
  match scanPages 0 rest with
  | none => ⟨pre, rest, []⟩
  | some (idx, p, k) =>
    let tli := (lineIdxFlatten 0 p.lines).getD k 0
    let page1 : SPage := ⟨p.text.take k, p.lines.take tli⟩
    let sub : SPage := ⟨p.text.drop k, p.lines.drop tli⟩
    ⟨pre, rest.take idx ++ [page1], sub :: rest.drop (idx + 1)⟩

example :
    get_qualitative_information
      [⟨"目次".data, ["目次".data]⟩,
       ⟨("今後の見通し".data ++ "今後の見通し".data),
        ["今後の見通し".data, "今後の見通し".data]⟩] =
    ⟨[⟨"目次".data, ["目次".data]⟩],
     [⟨"今後の見通し".data, ["今後の見通し".data]⟩],
     [⟨"今後の見通し".data, ["今後の見通し".data]⟩]⟩ := by decide

example :
    get_qualitative_information [⟨"abc".data, ["abc".data]⟩] =
      ⟨[⟨"abc".data, ["abc".data]⟩], [], []⟩ := by decide

/-! ## Theorems settling the claims -/

/-! ### C9: the two-sentence example -/

/-- Claim C9, as stated, is false: on `"これは文（テスト）です。次の文。"` the
splitter does not return the two-sentence list — the remainder matching of
`[^。]*$` over each line with `"\n"` appended also emits a `"\n"` candidate,
which survives `_clean_up_sentence_candidates` because it is non-empty. -/
theorem C9_counterexample :
    ¬ ssplit "これは文（テスト）です。次の文。".data =
        ["これは文（テスト）です。".data, "次の文。".data] := by decide

/-- Claim C9, amended: the splitter applied to
`"これは文（テスト）です。次の文。"` returns the two claimed sentences followed
by a trailing `"\n"` artifact element; the full-width period inside the
parenthetical run is not a split point and the one outside it is. -/
theorem C9_amended :
    ssplit "これは文（テスト）です。次の文。".data =
      ["これは文（テスト）です。".data, "次の文。".data, ['\n']] := by decide

/-! ### C3: the page-border filter -/

/-- A candidate page layout: one tree with a wide, short rule and a
near-page-sized frame, on a 60 × 60 page. -/
def layC3 : Layout := .container [.rectOrLine 0 0 55 10, .rectOrLine 0 0 55 55]

/-- Claim C3, as stated, is false: `extract_rects` keeps a rectangle when it
is small in at least ONE dimension (`or` in the guard of scraping.py line 79),
so the returned rectangle `(0, 0, 55, 10)` spans `55 ≥ 5/6 · 60` of the page
width. -/
theorem C3_counterexample :
    ¬ ∀ r ∈ extract_rects 60 60 layC3,
        ((r.x1 : ℚ) - (r.x0 : ℚ) < 60 * 5 / 6 ∧ (r.y1 : ℚ) - (r.y0 : ℚ) < 60 * 5 / 6) := by
  with_unfolding_all decide

/-! ### C4: the x-axis glyph dedup -/

/-- Claim C4, as stated, is false: when two glyphs of a line are a quarter
glyph width apart, the LATER-encountered glyph is discarded — the loop pops
the previously stored glyph and re-stores it under the new key
(`char = x2char.pop(prev)`, scraping.py line 58) — so the cluster text keeps
`'A'` (the earlier glyph), not `'B'`. -/
theorem C4_counterexample :
    clusterText [⟨10, 4, 'A'⟩, ⟨11, 4, 'B'⟩] = some ['A'] ∧
      ¬ clusterText [⟨10, 4, 'A'⟩, ⟨11, 4, 'B'⟩] = some ['B'] := by
  with_unfolding_all decide

/-! ### C2 / C6: box aggregation -/

/-- Claim C2, as stated, is false: the merge pass of `aggregate_rects` is not
repeated, so a bounding union produced by a later rectangle can overlap a box
it did not directly intersect.  With the tall box `(0,0,1,10)`, the distant
box `(5,5,6,6)` and the wide box `(0,0,10,1)`, the final set is
`[(5,5,6,6), (0,0,10,10)]`, whose two members overlap. -/
theorem C2_counterexample :
    ¬ List.Pairwise (fun a b => overlap a b = false)
        (aggregate_rects [⟨0, 0, 1, 10⟩, ⟨5, 5, 6, 6⟩, ⟨0, 0, 10, 1⟩]) := by
  with_unfolding_all decide

/-- Claim C6, as stated, is false: `aggregate_rects` is order-dependent.  The
same three rectangles in the order wide, tall, distant merge into the single
box `(0,0,10,10)`, while the order tall, distant, wide leaves `(5,5,6,6)`
unmerged: the two final box sets differ. -/
theorem C6_counterexample :
    List.Perm [Box.mk 0 0 1 10, Box.mk 5 5 6 6, Box.mk 0 0 10 1]
        [Box.mk 0 0 10 1, Box.mk 0 0 1 10, Box.mk 5 5 6 6] ∧
      ¬ (aggregate_rects [Box.mk 0 0 1 10, Box.mk 5 5 6 6, Box.mk 0 0 10 1]).toFinset =
          (aggregate_rects [Box.mk 0 0 10 1, Box.mk 0 0 1 10, Box.mk 5 5 6 6]).toFinset := by
  with_unfolding_all decide

/-! ### Frame lemmas about the `_balance` scan -/

theorem removeFirstCompat_mem {c : Char} :
    ∀ {st st2 : List (Nat × Char)}, removeFirstCompat c st = some st2 →
      ∀ e ∈ st2, e ∈ st := by
  intro st
  induction st with
  | nil => intro st2 h; simp [removeFirstCompat] at h
  | cons e0 st ih =>
    intro st2 h e he
    rw [removeFirstCompat] at h
    by_cases hc : compatB e0.2 c = true
    · rw [if_pos hc] at h
      cases h
      exact List.mem_cons_of_mem _ he
    · rw [if_neg hc] at h
      rcases Option.map_eq_some'.mp h with ⟨st2', h1, rfl⟩
      rcases List.mem_cons.mp he with rfl | he'
      · exact List.mem_cons_self _ _
      · exact List.mem_cons_of_mem _ (ih h1 e he')

theorem balScan_stack_mem :
    ∀ (l st : List (Nat × Char)) (rp : List Nat),
      ∀ e ∈ (balScan l st rp).1, e ∈ st ∨ e ∈ l := by
  intro l
  induction l with
  | nil => intro st rp e he; exact Or.inl he
  | cons p rest ih =>
    intro st rp e he
    obtain ⟨i, c⟩ := p
    rw [balScan] at he
    by_cases ho : isOpener c = true
    · rw [if_pos ho] at he
      rcases ih _ _ e he with h | h
      · rcases List.mem_cons.mp h with rfl | h'
        · exact Or.inr (List.mem_cons_self _ _)
        · exact Or.inl h'
      · exact Or.inr (List.mem_cons_of_mem _ h)
    · rw [if_neg ho] at he
      by_cases hcl : isCloser c = true
      · rw [if_pos hcl] at he
        by_cases hst : st.isEmpty = true
        · rw [if_pos hst] at he
          rcases ih _ _ e he with h | h
          · exact Or.inl h
          · exact Or.inr (List.mem_cons_of_mem _ h)
        · rw [if_neg hst] at he
          cases hrm : removeFirstCompat c st with
          | some st2 =>
            rw [hrm] at he
            rcases ih _ _ e he with h | h
            · exact Or.inl (removeFirstCompat_mem hrm e h)
            · exact Or.inr (List.mem_cons_of_mem _ h)
          | none =>
            rw [hrm] at he
            rcases ih _ _ e he with h | h
            · exact Or.inl h
            · exact Or.inr (List.mem_cons_of_mem _ h)
      · rw [if_neg hcl] at he
        rcases ih _ _ e he with h | h
        · exact Or.inl h
        · exact Or.inr (List.mem_cons_of_mem _ h)

theorem balScan_stack_opener :
    ∀ (l st : List (Nat × Char)) (rp : List Nat),
      (∀ e ∈ st, isOpener e.2 = true) →
      ∀ e ∈ (balScan l st rp).1, isOpener e.2 = true := by
  intro l
  induction l with
  | nil => intro st rp hst e he; exact hst e he
  | cons p rest ih =>
    intro st rp hst e he
    obtain ⟨i, c⟩ := p
    rw [balScan] at he
    by_cases ho : isOpener c = true
    · rw [if_pos ho] at he
      refine ih _ _ ?_ e he
      intro e' he'
      rcases List.mem_cons.mp he' with rfl | h'
      · exact ho
      · exact hst e' h'
    · rw [if_neg ho] at he
      by_cases hcl : isCloser c = true
      · rw [if_pos hcl] at he
        by_cases hst2 : st.isEmpty = true
        · rw [if_pos hst2] at he; exact ih _ _ hst e he
        · rw [if_neg hst2] at he
          cases hrm : removeFirstCompat c st with
          | some st2 =>
            rw [hrm] at he
            exact ih _ _ (fun e' he' => hst e' (removeFirstCompat_mem hrm e' he')) e he
          | none => rw [hrm] at he; exact ih _ _ hst e he
      · rw [if_neg hcl] at he; exact ih _ _ hst e he

theorem balScan_rp_mem :
    ∀ (l st : List (Nat × Char)) (rp : List Nat),
      ∀ j ∈ (balScan l st rp).2,
        j ∈ rp ∨ ∃ c, (j, c) ∈ l ∧ isCloser c = true := by
  intro l
  induction l with
  | nil => intro st rp j hj; exact Or.inl hj
  | cons p rest ih =>
    intro st rp j hj
    obtain ⟨i, c⟩ := p
    rw [balScan] at hj
    by_cases ho : isOpener c = true
    · rw [if_pos ho] at hj
      rcases ih _ _ j hj with h | ⟨c', h1, h2⟩
      · exact Or.inl h
      · exact Or.inr ⟨c', List.mem_cons_of_mem _ h1, h2⟩
    · rw [if_neg ho] at hj
      by_cases hcl : isCloser c = true
      · rw [if_pos hcl] at hj
        by_cases hst : st.isEmpty = true
        · rw [if_pos hst] at hj
          rcases ih _ _ j hj with h | ⟨c', h1, h2⟩
          · rcases List.mem_cons.mp h with rfl | h'
            · exact Or.inr ⟨c, List.mem_cons_self _ _, hcl⟩
            · exact Or.inl h'
          · exact Or.inr ⟨c', List.mem_cons_of_mem _ h1, h2⟩
        · rw [if_neg hst] at hj
          cases hrm : removeFirstCompat c st with
          | some st2 =>
            rw [hrm] at hj
            rcases ih _ _ j hj with h | ⟨c', h1, h2⟩
            · exact Or.inl h
            · exact Or.inr ⟨c', List.mem_cons_of_mem _ h1, h2⟩
          | none =>
            rw [hrm] at hj
            rcases ih _ _ j hj with h | ⟨c', h1, h2⟩
            · exact Or.inl h
            · exact Or.inr ⟨c', List.mem_cons_of_mem _ h1, h2⟩
      · rw [if_neg hcl] at hj
        rcases ih _ _ j hj with h | ⟨c', h1, h2⟩
        · exact Or.inl h
        · exact Or.inr ⟨c', List.mem_cons_of_mem _ h1, h2⟩

/-! ### C10: `_balance` is a pure position-wise substitution -/

/-- Claim C10 (confirmed): `_balance` preserves the length of its input, and
at every position the output character is either the input character
unchanged, or — only when that character is one of the eight bracket
characters — the placeholder assigned to that exact symbol. -/
theorem C10_pointwise (t : List Char) :
    (_balance t).length = t.length ∧
      ∀ i, i < t.length →
        (_balance t).getD i ' ' = t.getD i ' ' ∨
          ((isOpener (t.getD i ' ') = true ∨ isCloser (t.getD i ' ') = true) ∧
            (_balance t).getD i ' ' = toAlt (t.getD i ' ')) := by
  constructor
  · simp [_balance, outMap, List.enum_length]
  · intro i hi
    have hb : _balance t =
        (t.enum).map (fun p =>
          if (balScan t.enum [] []).2.contains p.1 ||
              (balScan t.enum [] []).1.any (fun e => e.1 == p.1)
          then toAlt p.2 else p.2) := rfl
    have hget : t.get? i = some (t.getD i ' ') := by
      rw [List.getD_eq_getElem?_getD, ← List.get?_eq_getElem?]
      cases hg : t.get? i with
      | none => exact absurd (List.get?_eq_none.mp hg) (Nat.not_le.mpr hi)
      | some a => rfl
    have henum : (t.enum).get? i = some (i, t.getD i ' ') := by
      rw [List.get?_enum, hget]; rfl
    have hout : (_balance t).getD i ' ' =
        (if (balScan t.enum [] []).2.contains i ||
            (balScan t.enum [] []).1.any (fun e => e.1 == i)
         then toAlt (t.getD i ' ') else t.getD i ' ') := by
      rw [hb, List.getD_eq_getElem?_getD, ← List.get?_eq_getElem?, List.get?_map, henum]
      rfl
    by_cases hc : ((balScan t.enum [] []).2.contains i ||
        (balScan t.enum [] []).1.any (fun e => e.1 == i)) = true
    · right
      rw [hout, if_pos hc]
      refine ⟨?_, rfl⟩
      rcases Bool.or_eq_true_iff.mp hc with h | h
      · -- replaced closer index
        have hmem : i ∈ (balScan t.enum [] []).2 := by
          simpa using h
        rcases balScan_rp_mem t.enum [] [] i hmem with h' | ⟨c', h1, h2⟩
        · simp at h'
        · have : t.get? i = some c' := List.mk_mem_enum_iff_get?.mp h1
          rw [hget] at this
          cases this
          exact Or.inr h2
      · -- leftover opener index
        rcases List.any_eq_true.mp h with ⟨e, he, hei⟩
        have hop := balScan_stack_opener t.enum [] [] (by simp) e he
        rcases balScan_stack_mem t.enum [] [] e he with h' | h'
        · simp at h'
        · obtain ⟨j, c'⟩ := e
          have hj : j = i := by simpa using hei
          subst hj
          have : t.get? j = some c' := List.mk_mem_enum_iff_get?.mp h'
          rw [hget] at this
          cases this
          exact Or.inl hop
    · left
      rw [hout, if_neg hc]

/-- Witness for C10 at the concrete input `"「a"`: the length is preserved and
position 0 (the unmatched `「`) satisfies the per-position disjunction. -/
theorem C10_witness :
    ((_balance "「a".data).length = "「a".data.length ∧
        (0 < "「a".data.length → True)) ∧
      ((_balance "「a".data).getD 0 ' ' = "「a".data.getD 0 ' ' ∨
        ((isOpener ("「a".data.getD 0 ' ') = true ∨ isCloser ("「a".data.getD 0 ' ') = true) ∧
          (_balance "「a".data).getD 0 ' ' = toAlt ("「a".data.getD 0 ' '))) :=
  ⟨⟨(C10_pointwise "「a".data).1, fun _ => trivial⟩,
    (C10_pointwise "「a".data).2 0 (by decide)⟩

/-! ### C8: acceptance conditions of the heading-phrase scan -/

/-- Claim C8 (confirmed): on a later page (`isFirst = false`) the first
occurrence of a query is accepted unconditionally; on the very first scanned
page a match is accepted exactly when its offset exceeds 150, or when the
phrase occurs again after the first occurrence, in which case the second
occurrence's absolute offset is the accepted split point. -/
theorem C8_acceptance (text q : List Char) (k : Nat) :
    (acceptQ false text q = findSub text q) ∧
      (acceptQ true text q = some k →
        (findSub text q = some k ∧ 150 < k) ∨
          (∃ k0 a, findSub text q = some k0 ∧ k0 ≤ 150 ∧
            findSub (text.drop (k0 + q.length)) q = some a ∧ k = k0 + q.length + a)) ∧
      (∀ k0, findSub text q = some k0 → 150 < k0 → acceptQ true text q = some k0) ∧
      (∀ k0 a, findSub text q = some k0 → k0 ≤ 150 →
        findSub (text.drop (k0 + q.length)) q = some a →
        acceptQ true text q = some (k0 + q.length + a)) := by
  refine ⟨?_, ?_, ?_, ?_⟩
  · cases h : findSub text q <;> simp [acceptQ, h]
  · intro hacc
    cases h : findSub text q with
    | none => rw [acceptQ, h] at hacc; exact absurd hacc (by simp)
    | some k0 =>
      rw [acceptQ, h] at hacc
      replace hacc : (if 150 < k0 then some k0
          else match findSub (text.drop (k0 + q.length)) q with
            | some a => some (k0 + q.length + a)
            | none => none) = some k := hacc
      by_cases h150 : 150 < k0
      · rw [if_pos h150] at hacc
        cases hacc
        exact Or.inl ⟨rfl, h150⟩
      · rw [if_neg h150] at hacc
        cases h2 : findSub (text.drop (k0 + q.length)) q with
        | none => rw [h2] at hacc; exact absurd hacc (by simp)
        | some a =>
          rw [h2] at hacc
          cases hacc
          exact Or.inr ⟨k0, a, rfl, Nat.le_of_not_lt h150, h2, rfl⟩
  · intro k0 h h150
    show acceptQ true text q = some k0
    rw [acceptQ, h]
    show (if 150 < k0 then some k0
        else match findSub (text.drop (k0 + q.length)) q with
          | some a => some (k0 + q.length + a)
          | none => none) = some k0
    rw [if_pos h150]
  · intro k0 a h hle h2
    show acceptQ true text q = some (k0 + q.length + a)
    rw [acceptQ, h]
    show (if 150 < k0 then some k0
        else match findSub (text.drop (k0 + q.length)) q with
          | some a => some (k0 + q.length + a)
          | none => none) = some (k0 + q.length + a)
    rw [if_neg (Nat.not_lt.mpr hle), h2]

/-- Witness for C8: on the text made of the phrase `"今後の見通し"` twice, the
first-page rule accepts the second occurrence, at absolute offset 6. -/
theorem C8_witness :
    acceptQ true ("今後の見通し".data ++ "今後の見通し".data) "今後の見通し".data =
      some 6 :=
  (C8_acceptance ("今後の見通し".data ++ "今後の見通し".data) "今後の見通し".data 0).2.2.2
    0 0 (by decide) (by decide) (by decide)

/-! ### C7: the split of the matched page -/

theorem isPrefixOf_len_le {α : Type} [BEq α] :
    ∀ (q s : List α), q.isPrefixOf s = true → q.length ≤ s.length := by
  intro q
  induction q with
  | nil => intro s _; simp
  | cons a as ih =>
    intro s h
    cases s with
    | nil => simp [List.isPrefixOf] at h
    | cons b bs =>
      rw [List.isPrefixOf] at h
      rcases Bool.and_eq_true_iff.mp h with ⟨_, h2⟩
      simpa using ih bs h2

theorem findSub_bound :
    ∀ (s q : List Char) (k : Nat), findSub s q = some k → k + q.length ≤ s.length := by
  intro s
  induction s with
  | nil =>
    intro q k h
    rw [findSub] at h
    by_cases hp : q.isPrefixOf ([] : List Char) = true
    · rw [if_pos hp] at h
      cases h
      simpa using isPrefixOf_len_le q [] hp
    · rw [if_neg hp] at h
      exact absurd h (by simp)
  | cons c rest ih =>
    intro q k h
    rw [findSub] at h
    by_cases hp : q.isPrefixOf (c :: rest) = true
    · rw [if_pos hp] at h
      cases h
      simpa using isPrefixOf_len_le q (c :: rest) hp
    · rw [if_neg hp] at h
      rcases Option.map_eq_some'.mp h with ⟨k', h1, rfl⟩
      have := ih q k' h1
      simp only [List.length_cons]
      omega

theorem acceptQ_bound (b : Bool) (text q : List Char) (k : Nat) (hq : q ≠ [])
    (h : acceptQ b text q = some k) : k < text.length := by
  have hql : 0 < q.length := List.length_pos.mpr hq
  cases hf : findSub text q with
  | none => rw [acceptQ, hf] at h; exact absurd h (by simp)
  | some k0 =>
    have hb0 := findSub_bound text q k0 hf
    rw [acceptQ, hf] at h
    cases b with
    | false =>
      simp only [Bool.false_eq_true, if_false] at h
      cases h; omega
    | true =>
      simp only [if_true] at h
      by_cases h150 : 150 < k0
      · rw [if_pos (by simpa using h150)] at h
        cases h; omega
      · rw [if_neg (by simpa using h150)] at h
        cases hf2 : findSub (text.drop (k0 + q.length)) q with
        | none => rw [hf2] at h; exact absurd h (by simp)
        | some a =>
          rw [hf2] at h
          cases h
          have hb2 := findSub_bound _ q a hf2
          rw [List.length_drop] at hb2
          omega

theorem tryPage_exists (b : Bool) (text : List Char) (k : Nat) :
    tryPage b text = some k → ∃ q ∈ queries, acceptQ b text q = some k := by
  rw [tryPage]
  generalize queries = qs
  induction qs with
  | nil => intro h; exact absurd h (by simp)
  | cons q qs ih =>
    intro h
    rw [List.foldr_cons] at h
    cases hq : acceptQ b text q with
    | some k' =>
      rw [hq] at h
      cases h
      exact ⟨q, List.mem_cons_self _ _, hq⟩
    | none =>
      rw [hq] at h
      rcases ih h with ⟨q', hq1, hq2⟩
      exact ⟨q', List.mem_cons_of_mem _ hq1, hq2⟩

theorem scanPages_spec :
    ∀ (rest : List SPage) (i idx : Nat) (p : SPage) (k : Nat),
      scanPages i rest = some (idx, p, k) →
      i ≤ idx ∧ idx - i < rest.length ∧ rest.get? (idx - i) = some p ∧
        tryPage (idx == 0) p.text = some k := by
  intro rest
  induction rest with
  | nil => intro i idx p k h; exact absurd h (by simp [scanPages])
  | cons p0 rest ih =>
    intro i idx p k h
    rw [scanPages] at h
    cases ht : tryPage (i == 0) p0.text with
    | some k0 =>
      rw [ht] at h
      cases h
      exact ⟨Nat.le_refl _, by simp, by simp, ht⟩
    | none =>
      rw [ht] at h
      rcases ih (i + 1) idx p k h with ⟨h1, h2, h3, h4⟩
      refine ⟨by omega, by simp only [List.length_cons]; omega, ?_, h4⟩
      have : idx - i = (idx - (i + 1)) + 1 := by omega
      rw [this, List.get?_cons_succ, h3]

theorem scanPages_k_bound (rest : List SPage) (idx : Nat) (p : SPage) (k : Nat)
    (h : scanPages 0 rest = some (idx, p, k)) : k < p.text.length := by
  rcases scanPages_spec rest 0 idx p k h with ⟨-, -, -, h4⟩
  rcases tryPage_exists _ _ _ h4 with ⟨q, hq, hacc⟩
  have hqne : q ≠ [] := by
    revert hq
    rw [queries]
    intro hq
    fin_cases hq <;> simp
  exact acceptQ_bound _ _ _ _ hqne hacc

theorem lineIdxFlatten_shift :
    ∀ (ls : List (List Char)) (i k : Nat), k < ls.flatten.length →
      (lineIdxFlatten i ls).getD k 0 = i + (lineIdxFlatten 0 ls).getD k 0 := by
  intro ls
  induction ls with
  | nil => intro i k h; simp at h
  | cons l ls ih =>
    intro i k h
    rw [lineIdxFlatten, lineIdxFlatten]
    simp only [Nat.zero_add]
    rw [List.getD_eq_getElem?_getD, List.getD_eq_getElem?_getD]
    rw [List.getElem?_append, List.getElem?_append, List.length_map, List.length_map]
    by_cases hk : k < l.length
    · rw [if_pos hk, if_pos hk, List.getElem?_map, List.getElem?_map]
      cases hg : l[k]? with
      | none => exact absurd (List.getElem?_eq_none_iff.mp hg) (by omega)
      | some a => simp
    · have hk2 : k - l.length < ls.flatten.length := by
        rw [List.flatten_cons, List.length_append] at h
        omega
      rw [if_neg hk, if_neg hk]
      rw [← List.getD_eq_getElem?_getD, ← List.getD_eq_getElem?_getD]
      rw [ih (i + 1) (k - l.length) hk2, ih 1 (k - l.length) hk2]
      omega

/-- The cumulative-character-count characterisation of
`char_idx2text_line_idx[char_idx]`: the selected line index `tli` satisfies
`|join (lines.take tli)| ≤ k < |join (lines.take (tli+1))|`. -/
theorem lineIdxFlatten_spec :
    ∀ (ls : List (List Char)) (k : Nat), k < ls.flatten.length →
      ((ls.take ((lineIdxFlatten 0 ls).getD k 0)).flatten.length ≤ k ∧
        k < (ls.take ((lineIdxFlatten 0 ls).getD k 0 + 1)).flatten.length) := by
  intro ls
  induction ls with
  | nil => intro k h; simp at h
  | cons l ls ih =>
    intro k h
    rw [lineIdxFlatten]
    by_cases hk : k < l.length
    · have hv : ((l.map (fun _ => 0) ++ lineIdxFlatten (0 + 1) ls).getD k 0) = 0 := by
        rw [List.getD_eq_getElem?_getD, List.getElem?_append, List.length_map,
          if_pos hk, List.getElem?_map]
        cases hg : l[k]? with
        | none => exact absurd (List.getElem?_eq_none_iff.mp hg) (by omega)
        | some a => simp
      rw [hv]
      constructor
      · simp
      · simpa using hk
    · have hk2 : k - l.length < ls.flatten.length := by
        rw [List.flatten_cons, List.length_append] at h
        omega
      have hv : ((l.map (fun _ => 0) ++ lineIdxFlatten (0 + 1) ls).getD k 0) =
          1 + (lineIdxFlatten 0 ls).getD (k - l.length) 0 := by
        rw [List.getD_eq_getElem?_getD, List.getElem?_append, List.length_map,
          if_neg hk, ← List.getD_eq_getElem?_getD]
        simpa using lineIdxFlatten_shift ls 1 (k - l.length) hk2
      rw [hv]
      rcases ih (k - l.length) hk2 with ⟨ih1, ih2⟩
      have e1 : 1 + (lineIdxFlatten 0 ls).getD (k - l.length) 0 =
          ((lineIdxFlatten 0 ls).getD (k - l.length) 0) + 1 := Nat.add_comm _ _
      constructor
      · rw [e1, List.take_succ_cons, List.flatten_cons, List.length_append]
        omega
      · rw [e1, List.take_succ_cons, List.flatten_cons, List.length_append]
        omega

/-- Claim C7 (confirmed): whenever the heading scan accepts offset `k` on page
`p` (the `idx`-th page after the table-of-contents boundary), the result
splits exactly there: pages before `idx` plus the head part of `p` form the
target subsection, the tail part of `p` followed by all later pages form
`succeed`, and the line split index is determined by cumulative per-line
character counts. -/
theorem C7_split (pages : List SPage) (idx : Nat) (p : SPage) (k : Nat)
    (hscan : scanPages 0 (pages.drop (tocIdx pages + 1)) = some (idx, p, k))
    (hjoin : p.text = p.lines.flatten) :
    get_qualitative_information pages =
        ⟨pages.take (tocIdx pages + 1),
          (pages.drop (tocIdx pages + 1)).take idx ++
            [⟨p.text.take k, p.lines.take ((lineIdxFlatten 0 p.lines).getD k 0)⟩],
          ⟨p.text.drop k, p.lines.drop ((lineIdxFlatten 0 p.lines).getD k 0)⟩ ::
            (pages.drop (tocIdx pages + 1)).drop (idx + 1)⟩ ∧
      (p.lines.take ((lineIdxFlatten 0 p.lines).getD k 0)).flatten.length ≤ k ∧
        k < (p.lines.take ((lineIdxFlatten 0 p.lines).getD k 0 + 1)).flatten.length := by
  have hk : k < p.lines.flatten.length := by
    have := scanPages_k_bound _ _ _ _ hscan
    rwa [hjoin] at this

  refine ⟨?_, ?_⟩
  · rw [get_qualitative_information]
    simp only [hscan]
  · exact lineIdxFlatten_spec p.lines k hk

/-- Witness for C7: a two-page document whose second page repeats the phrase
`"今後の見通し"`; the accepted offset 6 maps to line index 1 and the page is
split between its two lines. -/
theorem C7_witness :
    get_qualitative_information
        [⟨"目次".data, ["目次".data]⟩,
         ⟨("今後の見通し".data ++ "今後の見通し".data),
          ["今後の見通し".data, "今後の見通し".data]⟩] =
      ⟨[⟨"目次".data, ["目次".data]⟩],
        [⟨"今後の見通し".data, ["今後の見通し".data]⟩],
        [⟨"今後の見通し".data, ["今後の見通し".data]⟩]⟩ := by
  have h := C7_split
    [⟨"目次".data, ["目次".data]⟩,
     ⟨("今後の見通し".data ++ "今後の見通し".data),
      ["今後の見通し".data, "今後の見通し".data]⟩]
    0
    ⟨("今後の見通し".data ++ "今後の見通し".data),
     ["今後の見通し".data, "今後の見通し".data]⟩
    6 (by decide) (by decide)
  rw [h.1]
  decide

/-! ### C3 amended: the page-border filter keeps small-in-one-dimension rects -/

theorem keepRect_span {W H : ℚ} {r : Box} (h : keepRect W H r = true) :
    (r.x1 : ℚ) - (r.x0 : ℚ) < W * 5 / 6 ∨ (r.y1 : ℚ) - (r.y0 : ℚ) < H * 5 / 6 := by
  rcases Bool.or_eq_true_iff.mp h with h' | h'
  · exact Or.inl (of_decide_eq_true h')
  · exact Or.inr (of_decide_eq_true h')

theorem curveContribution_span {W H : ℚ} {l : Layout} {r : Box}
    (hr : r ∈ curveContribution W H l) :
    (r.x1 : ℚ) - (r.x0 : ℚ) < W * 5 / 6 ∨ (r.y1 : ℚ) - (r.y0 : ℚ) < H * 5 / 6 := by
  rw [curveContribution] at hr
  cases hcr : curve2rect l with
  | none => rw [hcr] at hr; simp at hr
  | some r0 =>
    rw [hcr] at hr
    replace hr : r ∈ (if keepRect W H r0 = true then [r0] else []) := hr
    by_cases hk : keepRect W H r0 = true
    · rw [if_pos hk] at hr
      rcases List.mem_singleton.mp hr with rfl
      exact keepRect_span hk
    · rw [if_neg hk] at hr; simp at hr

mutual

theorem extract_rects_span (W H : ℚ) :
    ∀ (lay : Layout) (r : Box), r ∈ extract_rects W H lay →
      (r.x1 : ℚ) - (r.x0 : ℚ) < W * 5 / 6 ∨ (r.y1 : ℚ) - (r.y0 : ℚ) < H * 5 / 6
  | .curve pts, r, hr => curveContribution_span (by rwa [extract_rects] at hr)
  | .rectOrLine a b c d, r, hr => curveContribution_span (by rwa [extract_rects] at hr)
  | .container cs, r, hr => extractRectsList_span W H cs r (by rwa [extract_rects] at hr)
  | .leafOther, r, hr => by rw [extract_rects] at hr; simp at hr

theorem extractRectsList_span (W H : ℚ) :
    ∀ (ls : List Layout) (r : Box), r ∈ extractRectsList W H ls →
      (r.x1 : ℚ) - (r.x0 : ℚ) < W * 5 / 6 ∨ (r.y1 : ℚ) - (r.y0 : ℚ) < H * 5 / 6
  | [], r, hr => by rw [extractRectsList] at hr; simp at hr
  | c :: cs, r, hr => by
    rw [extractRectsList] at hr
    rcases List.mem_append.mp hr with h | h
    · exact extract_rects_span W H c r h
    · exact extractRectsList_span W H cs r h

end

/-- Claim C3, amended: a curve's bounding rectangle is discarded as a page
border exactly when it spans at least 5/6 of the page width AND at least 5/6
of the page height; equivalently, every rectangle returned by `extract_rects`
spans strictly less than 5/6 of the width OR strictly less than 5/6 of the
height (not necessarily both). -/
theorem C3_amended (W H : ℚ) (lay : Layout) :
    ∀ r ∈ extract_rects W H lay,
      (r.x1 : ℚ) - (r.x0 : ℚ) < W * 5 / 6 ∨ (r.y1 : ℚ) - (r.y0 : ℚ) < H * 5 / 6 :=
  fun r hr => extract_rects_span W H lay r hr

/-- Witness for C3: the wide rule `(0, 0, 55, 10)` returned on the 60 × 60
page spans less than 5/6 of the height (it spans more than 5/6 of the width). -/
theorem C3_witness :
    ((Box.mk 0 0 55 10).x1 : ℚ) - ((Box.mk 0 0 55 10).x0 : ℚ) < 60 * 5 / 6 ∨
      ((Box.mk 0 0 55 10).y1 : ℚ) - ((Box.mk 0 0 55 10).y0 : ℚ) < 60 * 5 / 6 :=
  C3_amended 60 60 layC3 (Box.mk 0 0 55 10) (by with_unfolding_all decide)

/-! ### C4 amended: the earlier glyph wins the shared slot -/

/-- Claim C4, amended: when two glyphs of a line (in horizontal order) have
rounded positions whose gap is at most one quarter of the later glyph's
width, they occupy a single character slot and the EARLIER-encountered glyph
wins: its character is kept, stored under the later glyph's rounded position,
and the later glyph is discarded.  (The first hypothesis rules out the
sentinel `prev = 1000000` capturing the first glyph.) -/
theorem C4_amended (g1 g2 : Glyph)
    (hsort : g1.x0 ≤ g2.x0)
    (hfirst : ¬ |((1000000 : ℤ) : ℚ) - ((pyRound g1.x0 : ℤ) : ℚ)| ≤ g1.width / 4)
    (hmerge : |((pyRound g1.x0 : ℤ) : ℚ) - ((pyRound g2.x0 : ℤ) : ℚ)| ≤ g2.width / 4) :
    clusterText [g1, g2] = some [g1.ch] := by
  have hs : sortByX0 [g1, g2] = [g1, g2] := by
    rw [sortByX0, sortByX0, sortByX0, insX, insX, if_pos (decide_eq_true hsort)]
  have e2 : odInsert [] (pyRound g1.x0) g1 = [(pyRound g1.x0, g1)] := rfl
  have e1 : xLoop [g1, g2] [] 1000000 =
      xLoop [g2] [(pyRound g1.x0, g1)] (pyRound g1.x0) := by
    show (if decide (|((1000000 : ℤ) : ℚ) - ((pyRound g1.x0 : ℤ) : ℚ)| ≤ g1.width / 4) = true
        then
          match odPop [] 1000000 with
          | none => none
          | some vm => xLoop [g2] (odInsert vm.2 (pyRound g1.x0) vm.1) (pyRound g1.x0)
        else xLoop [g2] (odInsert [] (pyRound g1.x0) g1) (pyRound g1.x0)) =
      xLoop [g2] [(pyRound g1.x0, g1)] (pyRound g1.x0)
    rw [if_neg (by simpa using hfirst), e2]
  have hpop : odPop [(pyRound g1.x0, g1)] (pyRound g1.x0) = some (g1, []) := by
    rw [odPop]
    simp
  have e3 : xLoop [g2] [(pyRound g1.x0, g1)] (pyRound g1.x0) =
      some [(pyRound g2.x0, g1)] := by
    show (if decide (|((pyRound g1.x0 : ℤ) : ℚ) - ((pyRound g2.x0 : ℤ) : ℚ)| ≤ g2.width / 4) = true
        then
          match odPop [(pyRound g1.x0, g1)] (pyRound g1.x0) with
          | none => none
          | some vm => xLoop [] (odInsert vm.2 (pyRound g2.x0) vm.1) (pyRound g2.x0)
        else xLoop [] (odInsert [(pyRound g1.x0, g1)] (pyRound g2.x0) g2) (pyRound g2.x0)) =
      some [(pyRound g2.x0, g1)]
    rw [if_pos (decide_eq_true hmerge), hpop]
    rfl
  rw [clusterText, clusterChars, hs, e1, e3]
  rfl

/-- Witness for C4: the two concrete glyphs `(x0 = 10, w = 4, 'A')` and
`(x0 = 11, w = 4, 'B')` merge into the single slot keeping `'A'`. -/
theorem C4_witness : clusterText [⟨10, 4, 'A'⟩, ⟨11, 4, 'B'⟩] = some ['A'] :=
  C4_amended ⟨10, 4, 'A'⟩ ⟨11, 4, 'B'⟩ (by norm_num)
    (by with_unfolding_all decide) (by with_unfolding_all decide)

/-! ### C2 amended: every accepted rectangle ends up inside a final box -/

/-- `inner` lies inside `outer`. -/
def inBox (outer inner : Box) : Prop :=
  outer.x0 ≤ inner.x0 ∧ outer.y0 ≤ inner.y0 ∧ inner.x1 ≤ outer.x1 ∧ inner.y1 ≤ outer.y1

theorem inBox_trans {a b c : Box} (h1 : inBox a b) (h2 : inBox b c) : inBox a c :=
  ⟨le_trans h1.1 h2.1, le_trans h1.2.1 h2.2.1,
    le_trans h2.2.2.1 h1.2.2.1, le_trans h2.2.2.2 h1.2.2.2⟩

theorem foldl_min_le_init (f : Box → ℤ) :
    ∀ (bs : List Box) (a : ℤ), bs.foldl (fun m x => min m (f x)) a ≤ a := by
  intro bs
  induction bs with
  | nil => intro a; exact le_refl a
  | cons x bs ih =>
    intro a
    exact le_trans (ih (min a (f x))) (min_le_left _ _)

theorem foldl_min_le_mem (f : Box → ℤ) :
    ∀ (bs : List Box) (a : ℤ) (b : Box), b ∈ bs →
      bs.foldl (fun m x => min m (f x)) a ≤ f b := by
  intro bs
  induction bs with
  | nil => intro a b hb; simp at hb
  | cons x bs ih =>
    intro a b hb
    rcases List.mem_cons.mp hb with rfl | hb'
    · exact le_trans (foldl_min_le_init f bs (min a (f b))) (min_le_right _ _)
    · exact ih (min a (f x)) b hb'

theorem le_foldl_max_init (f : Box → ℤ) :
    ∀ (bs : List Box) (a : ℤ), a ≤ bs.foldl (fun m x => max m (f x)) a := by
  intro bs
  induction bs with
  | nil => intro a; exact le_refl a
  | cons x bs ih =>
    intro a
    exact le_trans (le_max_left _ _) (ih (max a (f x)))

theorem le_foldl_max_mem (f : Box → ℤ) :
    ∀ (bs : List Box) (a : ℤ) (b : Box), b ∈ bs →
      f b ≤ bs.foldl (fun m x => max m (f x)) a := by
  intro bs
  induction bs with
  | nil => intro a b hb; simp at hb
  | cons x bs ih =>
    intro a b hb
    rcases List.mem_cons.mp hb with rfl | hb'
    · exact le_trans (le_max_right _ _) (le_foldl_max_init f bs (max a (f b)))
    · exact ih (max a (f x)) b hb'

theorem boundingUnion_mem :
    ∀ (l : List Box), ∀ b ∈ l, inBox (boundingUnion l) b := by
  intro l b hb
  cases l with
  | nil => simp at hb
  | cons b0 bs =>
    rcases List.mem_cons.mp hb with rfl | hb'
    · exact ⟨foldl_min_le_init _ bs _, foldl_min_le_init _ bs _,
        le_foldl_max_init _ bs _, le_foldl_max_init _ bs _⟩
    · exact ⟨foldl_min_le_mem _ bs _ b hb', foldl_min_le_mem _ bs _ b hb',
        le_foldl_max_mem _ bs _ b hb', le_foldl_max_mem _ bs _ b hb'⟩

theorem overlap_self_of_wf {r : Box} (h : WfBox r) : overlap r r = true := by
  rcases h with ⟨h1, h2⟩
  simp [overlap, h1, h2]

theorem union_mem_aggStep (boxes : List Box) (rect : Box) :
    boundingUnion ((boxes ++ [rect]).filter (fun b => overlap rect b)) ∈
      aggStep boxes rect := by
  rw [aggStep]
  exact List.mem_append_right _ (List.mem_singleton_self _)

theorem aggStep_preserves (boxes : List Box) (rect r : Box)
    (h : ∃ b ∈ boxes, inBox b r) : ∃ b2 ∈ aggStep boxes rect, inBox b2 r := by
  rcases h with ⟨b, hb, hin⟩
  by_cases hov : overlap rect b = true
  · refine ⟨boundingUnion ((boxes ++ [rect]).filter (fun x => overlap rect x)),
      union_mem_aggStep boxes rect, ?_⟩
    have hbmem : b ∈ (boxes ++ [rect]).filter (fun x => overlap rect x) :=
      List.mem_filter.mpr ⟨List.mem_append_left _ hb, hov⟩
    exact inBox_trans (boundingUnion_mem _ b hbmem) hin
  · refine ⟨b, ?_, hin⟩
    rw [aggStep]
    refine List.mem_append_left _ (List.mem_filter.mpr ⟨List.mem_append_left _ hb, ?_⟩)
    simp only [decide_eq_true_eq]
    intro hmem
    exact hov (List.mem_filter.mp hmem).2

theorem aggStep_self (boxes : List Box) (rect : Box) (hwf : WfBox rect) :
    ∃ b ∈ aggStep boxes rect, inBox b rect := by
  refine ⟨boundingUnion ((boxes ++ [rect]).filter (fun x => overlap rect x)),
    union_mem_aggStep boxes rect, ?_⟩
  refine boundingUnion_mem _ rect (List.mem_filter.mpr ?_)
  exact ⟨List.mem_append_right _ (List.mem_singleton_self _), overlap_self_of_wf hwf⟩

theorem aggFold_contains (rects : List Box) :
    ∀ (l : List Box) (boxes : List Box) (r : Box),
      ((∃ b ∈ boxes, inBox b r) ∨ (r ∈ l ∧ WfBox r ∧ acceptRect rects r = true)) →
      ∃ b ∈ l.foldl
          (fun bs x => if acceptRect rects x then aggStep bs x else bs) boxes,
        inBox b r := by
  intro l
  induction l with
  | nil =>
    intro boxes r h
    rcases h with h | ⟨hr, -, -⟩
    · exact h
    · simp at hr
  | cons x l ih =>
    intro boxes r h
    rw [List.foldl_cons]
    rcases h with ⟨b, hb, hin⟩ | ⟨hr, hwf, hacc⟩
    · refine ih _ r (Or.inl ?_)
      by_cases ha : acceptRect rects x = true
      · rw [if_pos ha]
        exact aggStep_preserves boxes x r ⟨b, hb, hin⟩
      · rw [if_neg ha]
        exact ⟨b, hb, hin⟩
    · rcases List.mem_cons.mp hr with rfl | hr'
      · refine ih _ r (Or.inl ?_)
        rw [if_pos hacc]
        exact aggStep_self boxes r hwf
      · exact ih _ r (Or.inr ⟨hr', hwf, hacc⟩)

/-- Claim C2, amended: each accepted rectangle is merged — in one single,
non-repeated pass — with every box it overlaps into their bounding union, so
every accepted rectangle is contained in some box of the final set; but
because the pass is not repeated, two boxes of the final set may still
overlap (a later union can grow over a box it never directly intersected). -/
theorem C2_amended (rects : List Box) (r : Box) (hr : r ∈ rects) (hwf : WfBox r)
    (hacc : acceptRect rects r = true) :
    ∃ b ∈ aggregate_rects rects, inBox b r :=
  aggFold_contains rects rects [] r (Or.inr ⟨hr, hwf, hacc⟩)

/-- Witness for C2: the tall rectangle `(0,0,1,10)` of the counterexample run
is accepted and ends up inside a final box. -/
theorem C2_witness :
    ∃ b ∈ aggregate_rects [⟨0, 0, 1, 10⟩, ⟨5, 5, 6, 6⟩, ⟨0, 0, 10, 1⟩],
      inBox b ⟨0, 0, 1, 10⟩ :=
  C2_amended [⟨0, 0, 1, 10⟩, ⟨5, 5, 6, 6⟩, ⟨0, 0, 10, 1⟩] ⟨0, 0, 1, 10⟩
    (by decide) (by decide) (by with_unfolding_all decide)

/-! ### C6 amended: permutation invariance for pairwise non-overlapping input -/

theorem overlap_comm (a b : Box) : overlap a b = overlap b a := by
  rw [overlap, overlap, max_comm a.x0 b.x0, min_comm a.x1 b.x1,
    max_comm a.y0 b.y0, min_comm a.y1 b.y1]

theorem aggStep_disjoint (boxes : List Box) (rect : Box) (hwf : WfBox rect)
    (hdisj : ∀ b ∈ boxes, overlap rect b = false) :
    aggStep boxes rect = boxes ++ [rect] := by
  have hov : (boxes ++ [rect]).filter (fun b => overlap rect b) = [rect] := by
    rw [List.filter_append]
    have h1 : boxes.filter (fun b => overlap rect b) = [] :=
      List.filter_eq_nil_iff.mpr (fun b hb => by simp [hdisj b hb])
    have h2 : [rect].filter (fun b => overlap rect b) = [rect] := by
      simp [overlap_self_of_wf hwf]
    rw [h1, h2, List.nil_append]
  have hkept : (boxes ++ [rect]).filter (fun b => ¬ b ∈ [rect]) = boxes := by
    rw [List.filter_append]
    have h1 : boxes.filter (fun b => ¬ b ∈ [rect]) = boxes := by
      refine List.filter_eq_self.mpr (fun b hb => ?_)
      have hne : b ≠ rect := by
        intro h
        subst h
        have hfalse := hdisj b hb
        rw [overlap_self_of_wf hwf] at hfalse
        simp at hfalse
      simp [hne]
    have h2 : [rect].filter (fun b => ¬ b ∈ [rect]) = [] := by simp
    rw [h1, h2, List.append_nil]
  have hun : boundingUnion [rect] = rect := rfl
  rw [aggStep]
  simp only [hov, hkept, hun]

theorem agg_eq_filter (rects : List Box) :
    ∀ (l : List Box) (boxes : List Box),
      (∀ x ∈ l, WfBox x) → List.Pairwise (fun a b => overlap a b = false) l →
      (∀ b ∈ boxes, ∀ x ∈ l, overlap x b = false) →
      l.foldl (fun bs x => if acceptRect rects x then aggStep bs x else bs) boxes =
        boxes ++ l.filter (acceptRect rects) := by
  intro l
  induction l with
  | nil => intro boxes _ _ _; simp
  | cons x l ih =>
    intro boxes hwf hpw hboxes
    rw [List.foldl_cons]
    have hx : ∀ y ∈ l, overlap x y = false := (List.pairwise_cons.mp hpw).1
    have hpw' : List.Pairwise (fun a b => overlap a b = false) l :=
      (List.pairwise_cons.mp hpw).2
    have hwf' : ∀ y ∈ l, WfBox y := fun y hy => hwf y (List.mem_cons_of_mem _ hy)
    by_cases hacc : acceptRect rects x = true
    · rw [if_pos hacc]
      have hstep : aggStep boxes x = boxes ++ [x] :=
        aggStep_disjoint boxes x (hwf x (List.mem_cons_self _ _))
          (fun b hb => hboxes b hb x (List.mem_cons_self _ _))
      rw [hstep]
      have hboxes' : ∀ b ∈ boxes ++ [x], ∀ y ∈ l, overlap y b = false := by
        intro b hb y hy
        rcases List.mem_append.mp hb with hb' | hb'
        · exact hboxes b hb' y (List.mem_cons_of_mem _ hy)
        · rcases List.mem_singleton.mp hb' with rfl
          rw [overlap_comm]
          exact hx y hy
      rw [ih (boxes ++ [x]) hwf' hpw' hboxes', List.filter_cons_of_pos hacc,
        List.append_assoc, List.singleton_append]
    · rw [if_neg hacc]
      have hboxes' : ∀ b ∈ boxes, ∀ y ∈ l, overlap y b = false :=
        fun b hb y hy => hboxes b hb y (List.mem_cons_of_mem _ hy)
      rw [ih boxes hwf' hpw' hboxes', List.filter_cons_of_neg (by simpa using hacc)]

theorem xsAt_perm {l₁ l₂ : List Box} (h : l₁.Perm l₂) (y : ℤ) :
    (xsAt l₁ y).Perm (xsAt l₂ y) := by
  rw [xsAt, xsAt]
  exact List.Perm.dedup (List.Perm.flatMap_right _ (List.Perm.filter _ h))

theorem acceptRect_perm {l₁ l₂ : List Box} (h : l₁.Perm l₂) (r : Box) :
    acceptRect l₁ r = acceptRect l₂ r := by
  rw [acceptRect, acceptRect, (xsAt_perm h (midY r)).length_eq]

/-- Claim C6, amended: box aggregation is permutation-invariant when the
candidate rectangles are well-formed and pairwise non-overlapping (each
accepted rectangle then merges only with itself, so the final box set is the
accepted sublist in either order); for general inputs, permutations can
produce different final box sets. -/
theorem C6_amended (l₁ l₂ : List Box) (hperm : l₁.Perm l₂)
    (hwf : ∀ r ∈ l₁, WfBox r)
    (hpw : l₁.Pairwise (fun a b => overlap a b = false)) :
    (aggregate_rects l₁).toFinset = (aggregate_rects l₂).toFinset := by
  have hwf₂ : ∀ r ∈ l₂, WfBox r := fun r hr => hwf r (hperm.mem_iff.mpr hr)
  have hpw₂ : l₂.Pairwise (fun a b => overlap a b = false) :=
    (hperm.pairwise_iff (fun {a b} hab => by rw [overlap_comm]; exact hab)).mp hpw
  have h1 : aggregate_rects l₁ = l₁.filter (acceptRect l₁) := by
    have := agg_eq_filter l₁ l₁ [] hwf hpw (by simp)
    simpa [aggregate_rects] using this
  have h2 : aggregate_rects l₂ = l₂.filter (acceptRect l₂) := by
    have := agg_eq_filter l₂ l₂ [] hwf₂ hpw₂ (by simp)
    simpa [aggregate_rects] using this
  have h3 : l₂.filter (acceptRect l₂) = l₂.filter (acceptRect l₁) :=
    List.filter_congr (fun r _ => acceptRect_perm hperm.symm r)
  rw [h1, h2, h3]
  exact List.toFinset_eq_of_perm _ _ (hperm.filter (acceptRect l₁))

/-- Witness for C6: two disjoint well-formed boxes, swapped. -/
theorem C6_witness :
    (aggregate_rects [Box.mk 0 0 1 1, Box.mk 3 3 4 4]).toFinset =
      (aggregate_rects [Box.mk 3 3 4 4, Box.mk 0 0 1 1]).toFinset :=
  C6_amended [Box.mk 0 0 1 1, Box.mk 3 3 4 4] [Box.mk 3 3 4 4, Box.mk 0 0 1 1]
    (by decide) (by decide) (by decide)

/-! ### C5: character conservation through the splitter

The pipeline only ever partitions the text: candidate generation covers every
character of each line (plus one appended `"\n"` per line), the two merge
passes concatenate candidates (the parenthesis pass additionally drops one
`"\n"` at each forced flush), and cleanup drops empty candidates and maps the
placeholders back.  The lemmas below track the concatenation of all
candidates through each stage. -/

theorem reFindallAux_flatten :
    ∀ (s cur : List Char), (reFindallAux cur s).flatten = cur.reverse ++ s := by
  intro s
  induction s with
  | nil =>
    intro cur
    rw [reFindallAux]
    by_cases h : cur = []
    · rw [if_pos h, h]; simp
    · rw [if_neg h]; simp
  | cons c rest ih =>
    intro cur
    rw [reFindallAux]
    by_cases h : c = '。'
    · rw [if_pos h, List.flatten_cons, ih []]
      simp [h]
    · rw [if_neg h, ih (c :: cur)]
      simp

theorem pySplitNlAux_flatten :
    ∀ (t cur : List Char),
      ((pySplitNlAux cur t).map (fun l => l ++ ['\n'])).flatten =
        cur.reverse ++ t ++ ['\n'] := by
  intro t
  induction t with
  | nil => intro cur; rw [pySplitNlAux]; simp
  | cons c rest ih =>
    intro cur
    rw [pySplitNlAux]
    by_cases h : c = '\n'
    · rw [if_pos h, List.map_cons, List.flatten_cons, ih []]
      simp [h]
    · rw [if_neg h, ih (c :: cur)]
      simp

theorem flatten_flatMap {α β : Type} (f : α → List (List β)) :
    ∀ (l : List α), (l.flatMap f).flatten = (l.map (fun x => (f x).flatten)).flatten := by
  intro l
  induction l with
  | nil => rfl
  | cons x l ih => rw [List.flatMap_cons, List.flatten_append, ih]; simp

/-- The concatenation of all raw candidates is the balanced text plus one
trailing newline. -/
theorem cands_flatten (b : List Char) :
    ((pySplitNl b).flatMap (fun line => reFindall (line ++ ['\n']))).flatten =
      b ++ ['\n'] := by
  rw [flatten_flatMap]
  have hmap : (pySplitNl b).map (fun line => (reFindall (line ++ ['\n'])).flatten) =
      (pySplitNl b).map (fun line => line ++ ['\n']) :=
    List.map_congr_left (fun line _ => reFindallAux_flatten (line ++ ['\n']) [])
  rw [hmap, pySplitNl, pySplitNlAux_flatten b []]
  simp

theorem mspLoop_flatten :
    ∀ (cands acc : List (List Char)),
      (mspLoop acc cands).flatten = acc.reverse.flatten ++ cands.flatten := by
  intro cands
  induction cands with
  | nil => intro acc; rw [mspLoop]; simp
  | cons c rest ih =>
    intro acc
    have e : mspLoop acc (c :: rest) =
        if isSinglePeriod c = true then
          (match acc with
            | last :: before => mspLoop ((last ++ c) :: before) rest
            | [] => mspLoop [c] rest)
        else mspLoop (c :: acc) rest := by
      cases acc <;> rw [mspLoop]
    rw [e]
    by_cases h : isSinglePeriod c = true
    · rw [if_pos h]
      cases acc with
      | nil => rw [ih [c]]; simp
      | cons last before =>
        rw [ih ((last ++ c) :: before)]
        simp [List.flatten_append]
    · rw [if_neg h, ih (c :: acc)]
      simp [List.flatten_append]

theorem msp_flatten (cands : List (List Char)) :
    (_merge_single_periods cands).flatten = cands.flatten := by
  rw [_merge_single_periods]
  have h := mspLoop_flatten cands [[]]
  cases hm : mspLoop [[]] cands with
  | nil => rw [hm] at h; simpa using h.symm
  | cons first t =>
    rw [hm] at h
    cases first with
    | nil => simpa using h
    | cons a as => simpa using h

theorem dropWhile_nl {c : List Char} (h : c.contains '\n' = true) :
    ∃ d, c.dropWhile (fun x => ¬ x = '\n') = '\n' :: d := by
  induction c with
  | nil => simp at h
  | cons x xs ih =>
    by_cases hx : x = '\n'
    · subst hx
      exact ⟨xs, by rw [List.dropWhile_cons_of_neg (by simp)]⟩
    · have hxs : xs.contains '\n' = true := by
        rw [List.contains_cons] at h
        rcases Bool.or_eq_true_iff.mp h with h' | h'
        · exact absurd (beq_iff_eq.mp h').symm hx
        · exact h'
      rcases ih hxs with ⟨d, hd⟩
      exact ⟨d, by rw [List.dropWhile_cons_of_pos (by simp [hx]), hd]⟩

theorem mergeParenFuel_flatten_filter :
    ∀ (fuel : Nat) (p q : Int) (pend : List Char) (acc rem : List (List Char)),
      ((mergeParenFuel fuel p q pend acc rem).flatten).filter (fun c => ¬ c = '\n') =
        (acc.reverse.flatten ++ pend ++ rem.flatten).filter (fun c => ¬ c = '\n') := by
  intro fuel
  induction fuel with
  | zero =>
    intro p q pend acc rem
    rw [mergeParenFuel]
    by_cases h : pend = []
    · rw [if_pos h, h]; simp [List.flatten_append]
    · rw [if_neg h]; simp [List.flatten_append]
  | succ fuel ih =>
    intro p q pend acc rem
    cases rem with
    | nil =>
      have e : mergeParenFuel (fuel + 1) p q pend acc [] =
          (if pend = [] then acc else pend :: acc).reverse := rfl
      rw [e]
      by_cases h : pend = []
      · rw [if_pos h, h]; simp
      · rw [if_neg h]; simp [List.flatten_append]
    | cons c rest =>
      have e : mergeParenFuel (fuel + 1) p q pend acc (c :: rest) =
          if p + lvlP c = 0 ∧ q + lvlQ c = 0 then
            mergeParenFuel fuel 0 0 [] ((pend ++ c) :: acc) rest
          else if c.contains '\n' = true then
            mergeParenFuel fuel 0 0 []
              ((pend ++ c.takeWhile (fun x => ¬ x = '\n')) :: acc)
              ((((c.dropWhile (fun x => ¬ x = '\n')).drop 1)) :: rest)
          else mergeParenFuel fuel (p + lvlP c) (q + lvlQ c) (pend ++ c) acc rest := rfl
      rw [e]
      by_cases hz : p + lvlP c = 0 ∧ q + lvlQ c = 0
      · rw [if_pos hz, ih]
        simp [List.flatten_append, List.filter_append, List.append_assoc]
      · rw [if_neg hz]
        by_cases hnl : c.contains '\n' = true
        · rw [if_pos hnl, ih]
          rcases dropWhile_nl hnl with ⟨d, hd⟩
          have h0 : c.takeWhile (fun x => ¬ x = '\n') ++
              c.dropWhile (fun x => ¬ x = '\n') = c := by simp
          have hsplit : c = c.takeWhile (fun x => ¬ x = '\n') ++
              ('\n' :: ((c.dropWhile (fun x => ¬ x = '\n')).drop 1)) := by
            conv_lhs => rw [← h0]
            rw [hd]
            simp
          conv_rhs => rw [hsplit]
          simp [List.flatten_append, List.filter_append, List.append_assoc]
        · rw [if_neg hnl, ih]
          simp [List.flatten_append, List.filter_append, List.append_assoc]

theorem filter_nonempty_flatten (cands : List (List Char)) :
    ((cands.filter (fun c => ¬ c = [])).flatten) = cands.flatten := by
  induction cands with
  | nil => rfl
  | cons c rest ih =>
    by_cases h : c = []
    · rw [List.filter_cons_of_neg (by simp [h]), ih, List.flatten_cons, h,
        List.nil_append]
    · rw [List.filter_cons_of_pos (by simp [h]), List.flatten_cons, ih,
        List.flatten_cons]

theorem altTr_isWhitespace (c : Char) : (altTr c).isWhitespace = c.isWhitespace := by
  rw [altTr]
  split_ifs with h1 h2 h3 h4 h5 h6 h7 h8
  · subst h1; decide
  · subst h2; decide
  · subst h3; decide
  · subst h4; decide
  · subst h5; decide
  · subst h6; decide
  · subst h7; decide
  · subst h8; decide
  · rfl

theorem altTr_eq_self {c : Char} (h : ¬ c ∈ placeholders) : altTr c = c := by
  have h1 : ¬ c = 'ω' := fun e => h (by rw [e]; decide)
  have h2 : ¬ c = 'ψ' := fun e => h (by rw [e]; decide)
  have h3 : ¬ c = 'χ' := fun e => h (by rw [e]; decide)
  have h4 : ¬ c = 'φ' := fun e => h (by rw [e]; decide)
  have h5 : ¬ c = 'υ' := fun e => h (by rw [e]; decide)
  have h6 : ¬ c = 'τ' := fun e => h (by rw [e]; decide)
  have h7 : ¬ c = 'σ' := fun e => h (by rw [e]; decide)
  have h8 : ¬ c = 'ρ' := fun e => h (by rw [e]; decide)
  rw [altTr, if_neg h1, if_neg h2, if_neg h3, if_neg h4, if_neg h5, if_neg h6,
    if_neg h7, if_neg h8]

theorem altTr_toAlt {c : Char} (h : ¬ c ∈ placeholders) : altTr (toAlt c) = c := by
  by_cases e1 : c = '（'
  · subst e1; decide
  by_cases e2 : c = '('
  · subst e2; decide
  by_cases e3 : c = '「'
  · subst e3; decide
  by_cases e4 : c = '“'
  · subst e4; decide
  by_cases e5 : c = '）'
  · subst e5; decide
  by_cases e6 : c = ')'
  · subst e6; decide
  by_cases e7 : c = '」'
  · subst e7; decide
  by_cases e8 : c = '”'
  · subst e8; decide
  have ht : toAlt c = c := by
    rw [toAlt, if_neg e1, if_neg e2, if_neg e3, if_neg e4, if_neg e5, if_neg e6,
      if_neg e7, if_neg e8]
  rw [ht]
  exact altTr_eq_self h

/-- Translating the placeholders back undoes `_balance` exactly, provided the
input itself contains no placeholder character. -/
theorem balance_map_altTr (t : List Char) (hph : ∀ c ∈ t, ¬ c ∈ placeholders) :
    (_balance t).map altTr = t := by
  have e : _balance t =
      t.enum.map (fun p =>
        if (balScan t.enum [] []).2.contains p.1 ||
            (balScan t.enum [] []).1.any (fun x => x.1 == p.1)
        then toAlt p.2 else p.2) := rfl
  rw [e, List.map_map]
  have hpt : ∀ p ∈ t.enum,
      (altTr ∘ fun p =>
        if (balScan t.enum [] []).2.contains p.1 ||
            (balScan t.enum [] []).1.any (fun x => x.1 == p.1)
        then toAlt p.2 else p.2) p = Prod.snd p := by
    intro p hp
    obtain ⟨i, c⟩ := p
    have hc : c ∈ t := List.get?_mem (List.mk_mem_enum_iff_get?.mp hp)
    simp only [Function.comp]
    by_cases hcond : ((balScan t.enum [] []).2.contains i ||
        (balScan t.enum [] []).1.any (fun x => x.1 == i)) = true
    · rw [if_pos hcond]
      exact altTr_toAlt (hph c hc)
    · rw [if_neg hcond]
      exact altTr_eq_self (hph c hc)
  rw [List.map_congr_left hpt, List.enum_map_snd]

theorem filter_notWs_filter_nl (x : List Char) :
    (x.filter (fun c => ¬ c = '\n')).filter (fun c => ¬ c.isWhitespace) =
      x.filter (fun c => ¬ c.isWhitespace) := by
  rw [List.filter_filter]
  refine List.filter_congr ?_
  intro a _
  by_cases ha : a = '\n'
  · subst ha; decide
  · simp [ha]

theorem map_altTr_filter_notWs (x : List Char) :
    (x.map altTr).filter (fun c => ¬ c.isWhitespace) =
      (x.filter (fun c => ¬ c.isWhitespace)).map altTr := by
  rw [List.map_filter]
  refine congrArg (List.map altTr) (List.filter_congr ?_)
  intro a _
  simp [Function.comp, altTr_isWhitespace]

/-- Claim C5, amended: for every input text containing none of the eight
placeholder characters `ω ψ χ φ υ τ σ ρ`, the concatenation of the sentences
returned by `ssplit` has exactly the input's multiset of non-whitespace
characters: the splitter only partitions the text (plus newline bookkeeping),
and the placeholders introduced by `_balance` are mapped back.  (Without the
proviso the law fails: a placeholder character present in the input is
translated into its bracket by the final cleanup.) -/
theorem C5_amended (t : List Char) (hph : ∀ c ∈ t, ¬ c ∈ placeholders) :
    (((ssplit t).flatten.filter (fun c => ¬ c.isWhitespace) : List Char) : Multiset Char) =
      ((t.filter (fun c => ¬ c.isWhitespace) : List Char) : Multiset Char) := by
  suffices h : (ssplit t).flatten.filter (fun c => ¬ c.isWhitespace) =
      t.filter (fun c => ¬ c.isWhitespace) by
    rw [h]
  have e0 : ssplit t =
      ((_merge_parenthesis (_merge_single_periods
          ((pySplitNl (_balance t)).flatMap
            (fun line => reFindall (line ++ ['\n']))))).filter
        (fun c => ¬ c = [])).map (fun c => c.map altTr) := rfl
  rw [e0, ← List.map_flatten, filter_nonempty_flatten]
  rw [map_altTr_filter_notWs]
  have hm2 : ((_merge_parenthesis (_merge_single_periods
      ((pySplitNl (_balance t)).flatMap
        (fun line => reFindall (line ++ ['\n']))))).flatten).filter
        (fun c => ¬ c = '\n') =
      (_balance t).filter (fun c => ¬ c = '\n') := by
    have e1 : _merge_parenthesis (_merge_single_periods
        ((pySplitNl (_balance t)).flatMap (fun line => reFindall (line ++ ['\n'])))) =
        mergeParenFuel (mpFuel (_merge_single_periods
          ((pySplitNl (_balance t)).flatMap (fun line => reFindall (line ++ ['\n'])))))
          0 0 [] []
          (_merge_single_periods
            ((pySplitNl (_balance t)).flatMap (fun line => reFindall (line ++ ['\n'])))) := rfl
    rw [e1, mergeParenFuel_flatten_filter]
    simp only [List.reverse_nil, List.flatten_nil, List.nil_append]
    rw [msp_flatten, cands_flatten, List.filter_append]
    simp
  have hfl : ((_merge_parenthesis (_merge_single_periods
      ((pySplitNl (_balance t)).flatMap
        (fun line => reFindall (line ++ ['\n']))))).flatten).filter
        (fun c => ¬ c.isWhitespace) =
      (_balance t).filter (fun c => ¬ c.isWhitespace) := by
    rw [← filter_notWs_filter_nl ((_merge_parenthesis (_merge_single_periods
      ((pySplitNl (_balance t)).flatMap
        (fun line => reFindall (line ++ ['\n']))))).flatten), hm2,
      filter_notWs_filter_nl]
  rw [hfl, ← map_altTr_filter_notWs, balance_map_altTr t hph]

/-- Claim C5, as stated, is false: the input `"ω"` — a bare placeholder
character — is turned into `"（"` by the final placeholder back-translation,
so the non-whitespace character multiset is not preserved. -/
theorem C5_counterexample :
    ¬ ((((ssplit ['ω']).flatten.filter (fun c => ¬ c.isWhitespace) : List Char) :
          Multiset Char) =
        ((['ω'].filter (fun c => ¬ c.isWhitespace) : List Char) : Multiset Char)) := by
  decide

/-- Witness for C5 at the placeholder-free input `"a。b"`. -/
theorem C5_witness :
    (((ssplit "a。b".data).flatten.filter (fun c => ¬ c.isWhitespace) : List Char) :
        Multiset Char) =
      (("a。b".data.filter (fun c => ¬ c.isWhitespace) : List Char) : Multiset Char) :=
  C5_amended "a。b".data (by decide)

/-! ### C1: unmatched openers never survive `_balance`

The compatibility relation of `_balance` partitions the bracket characters
into three independent classes — parentheses (full- and half-width mixed),
corner brackets, and curly double quotes.  Within a class the stack behaves
as a plain counter, which lets the number of pending openers of each class be
tracked by a simple fold (`cfold`).  The key lemma shows that the fold over
the REPLACED output, started from the number of initial-stack entries of the
class that get matched during the rest of the scan, ends at zero; with an
empty initial stack this says that re-scanning `_balance`'s output leaves no
opener unmatched.  (Unmatched closers CAN survive — see the counterexample —
because a closer arriving while the stack holds only incompatible openers is
left unchanged.) -/

inductive BKind where
  | par
  | kag
  | quo
deriving DecidableEq, Repr

/-- The class of a character as an opener. -/
def openK (c : Char) : Option BKind :=
  if c = '（' ∨ c = '(' then some .par
  else if c = '「' then some .kag
  else if c = '“' then some .quo
  else none

/-- The class of a character as a closer. -/
def closeK (c : Char) : Option BKind :=
  if c = '）' ∨ c = ')' then some .par
  else if c = '」' then some .kag
  else if c = '”' then some .quo
  else none

theorem isOpener_iff_openK {c : Char} : isOpener c = true ↔ (openK c).isSome := by
  constructor
  · intro h
    simp only [isOpener, Bool.or_eq_true, beq_iff_eq] at h
    rcases h with ((h | h) | h) | h <;> subst h <;> decide
  · intro h
    rw [openK] at h
    split_ifs at h with h1 h2 h3
    · rcases h1 with h1 | h1 <;> subst h1 <;> decide
    · subst h2; decide
    · subst h3; decide
    · simp at h

theorem isCloser_iff_closeK {c : Char} : isCloser c = true ↔ (closeK c).isSome := by
  constructor
  · intro h
    simp only [isCloser, Bool.or_eq_true, beq_iff_eq] at h
    rcases h with ((h | h) | h) | h <;> subst h <;> decide
  · intro h
    rw [closeK] at h
    split_ifs at h with h1 h2 h3
    · rcases h1 with h1 | h1 <;> subst h1 <;> decide
    · subst h2; decide
    · subst h3; decide
    · simp at h

theorem openK_inv {c : Char} {k : BKind} (h : openK c = some k) :
    (k = .par ∧ (c = '（' ∨ c = '(')) ∨ (k = .kag ∧ c = '「') ∨
      (k = .quo ∧ c = '“') := by
  rw [openK] at h
  split_ifs at h with h1 h2 h3
  · exact Or.inl ⟨(Option.some_inj.mp h).symm, h1⟩
  · exact Or.inr (Or.inl ⟨(Option.some_inj.mp h).symm, h2⟩)
  · exact Or.inr (Or.inr ⟨(Option.some_inj.mp h).symm, h3⟩)

theorem closeK_inv {c : Char} {k : BKind} (h : closeK c = some k) :
    (k = .par ∧ (c = '）' ∨ c = ')')) ∨ (k = .kag ∧ c = '」') ∨
      (k = .quo ∧ c = '”') := by
  rw [closeK] at h
  split_ifs at h with h1 h2 h3
  · exact Or.inl ⟨(Option.some_inj.mp h).symm, h1⟩
  · exact Or.inr (Or.inl ⟨(Option.some_inj.mp h).symm, h2⟩)
  · exact Or.inr (Or.inr ⟨(Option.some_inj.mp h).symm, h3⟩)

/-- The compatibility test of `_balance` is exactly "same class". -/
theorem compatB_iff {o c : Char} :
    compatB o c = true ↔ ∃ k, openK o = some k ∧ closeK c = some k := by
  constructor
  · intro h
    simp only [compatB, Bool.or_eq_true, Bool.and_eq_true, beq_iff_eq] at h
    rcases h with (((⟨ho, hc | hc⟩ | ⟨ho, hc | hc⟩) | ⟨ho, hc⟩) | ⟨ho, hc⟩)
    · subst ho; subst hc; exact ⟨.par, by decide, by decide⟩
    · subst ho; subst hc; exact ⟨.par, by decide, by decide⟩
    · subst ho; subst hc; exact ⟨.par, by decide, by decide⟩
    · subst ho; subst hc; exact ⟨.par, by decide, by decide⟩
    · subst ho; subst hc; exact ⟨.kag, by decide, by decide⟩
    · subst ho; subst hc; exact ⟨.quo, by decide, by decide⟩
  · rintro ⟨k, ho, hc⟩
    rcases openK_inv ho with ⟨hk, ho'⟩ | ⟨hk, ho'⟩ | ⟨hk, ho'⟩ <;>
      rcases closeK_inv hc with ⟨hk2, hc'⟩ | ⟨hk2, hc'⟩ | ⟨hk2, hc'⟩
    · rcases ho' with ho' | ho' <;> rcases hc' with hc' | hc' <;>
        subst ho' <;> subst hc' <;> decide
    · exact absurd (hk.symm.trans hk2) (by decide)
    · exact absurd (hk.symm.trans hk2) (by decide)
    · exact absurd (hk.symm.trans hk2) (by decide)
    · subst ho'; subst hc'; decide
    · exact absurd (hk.symm.trans hk2) (by decide)
    · exact absurd (hk.symm.trans hk2) (by decide)
    · exact absurd (hk.symm.trans hk2) (by decide)
    · subst ho'; subst hc'; decide

theorem openK_toAlt {c : Char} (h : isOpener c = true ∨ isCloser c = true) :
    openK (toAlt c) = none ∧ closeK (toAlt c) = none := by
  rcases h with h | h
  · simp only [isOpener, Bool.or_eq_true, beq_iff_eq] at h
    rcases h with ((h | h) | h) | h <;> subst h <;> exact ⟨by decide, by decide⟩
  · simp only [isCloser, Bool.or_eq_true, beq_iff_eq] at h
    rcases h with ((h | h) | h) | h <;> subst h <;> exact ⟨by decide, by decide⟩

theorem openK_none_of_closer {c : Char} (h : isCloser c = true) : openK c = none := by
  simp only [isCloser, Bool.or_eq_true, beq_iff_eq] at h
  rcases h with ((h | h) | h) | h <;> subst h <;> decide

theorem closeK_none_of_opener {c : Char} (h : isOpener c = true) : closeK c = none := by
  simp only [isOpener, Bool.or_eq_true, beq_iff_eq] at h
  rcases h with ((h | h) | h) | h <;> subst h <;> decide

theorem openK_none_of_neither {c : Char} (h : ¬ isOpener c = true) : openK c = none := by
  cases ho : openK c with
  | none => rfl
  | some k => exact absurd (isOpener_iff_openK.mpr (by rw [ho]; rfl)) h

theorem closeK_none_of_neither {c : Char} (h : ¬ isCloser c = true) : closeK c = none := by
  cases hc : closeK c with
  | none => rfl
  | some k => exact absurd (isCloser_iff_closeK.mpr (by rw [hc]; rfl)) h

/-- Per-class counter over a character sequence: openers of the class push,
closers of the class pop (with floor at zero), everything else is neutral. -/
def cfold (k : BKind) : List Char → Nat → Nat
  | [], n => n
  | c :: rest, n =>
    if openK c = some k then cfold k rest (n + 1)
    else if closeK c = some k then cfold k rest (n - 1)
    else cfold k rest n

/-- Number of class-`k` openers in a character stack. -/
def countKC (k : BKind) (st : List Char) : Nat :=
  (st.filter (fun c => openK c = some k)).length

theorem countKC_cons (k : BKind) (c : Char) (st : List Char) :
    countKC k (c :: st) =
      (if openK c = some k then 1 else 0) + countKC k st := by
  by_cases h : openK c = some k
  · rw [if_pos h, countKC, countKC, List.filter_cons_of_pos (by simp [h]),
      List.length_cons]
    omega
  · rw [if_neg h, countKC, countKC, List.filter_cons_of_neg (by simp [h])]
    omega

theorem countKC_append (k : BKind) (a b : List Char) :
    countKC k (a ++ b) = countKC k a + countKC k b := by
  rw [countKC, countKC, countKC, List.filter_append, List.length_append]

theorem removeFirstCompatC_split {c : Char} :
    ∀ {st st2 : List Char}, removeFirstCompatC c st = some st2 →
      ∃ st1 o st3, st = st1 ++ o :: st3 ∧ st2 = st1 ++ st3 ∧ compatB o c = true := by
  intro st
  induction st with
  | nil => intro st2 h; simp [removeFirstCompatC] at h
  | cons o0 st ih =>
    intro st2 h
    rw [removeFirstCompatC] at h
    by_cases hc : compatB o0 c = true
    · rw [if_pos hc] at h
      cases h
      exact ⟨[], o0, st, rfl, rfl, hc⟩
    · rw [if_neg hc] at h
      rcases Option.map_eq_some'.mp h with ⟨st2', h1, rfl⟩
      rcases ih h1 with ⟨st1, o, st3, rfl, rfl, hcp⟩
      exact ⟨o0 :: st1, o, st3, rfl, rfl, hcp⟩

theorem removeFirstCompatC_none {c : Char} :
    ∀ {st : List Char}, removeFirstCompatC c st = none →
      ∀ o ∈ st, compatB o c = false := by
  intro st
  induction st with
  | nil => intro _ o ho; simp at ho
  | cons o0 st ih =>
    intro h o ho
    rw [removeFirstCompatC] at h
    by_cases hc : compatB o0 c = true
    · rw [if_pos hc] at h; exact absurd h (by simp)
    · rw [if_neg hc] at h
      rcases List.mem_cons.mp ho with rfl | ho'
      · exact Bool.eq_false_iff.mpr hc
      · cases hrm : removeFirstCompatC c st with
        | some st2 => rw [hrm] at h; exact absurd h (by simp)
        | none => exact ih hrm o ho'

theorem rescan_stack_opener :
    ∀ (s st : List Char) (u : Nat), (∀ o ∈ st, isOpener o = true) →
      ∀ o ∈ (rescan s st u).1, isOpener o = true := by
  intro s
  induction s with
  | nil => intro st u hst o ho; exact hst o ho
  | cons c rest ih =>
    intro st u hst o ho
    rw [rescan] at ho
    by_cases hop : isOpener c = true
    · rw [if_pos hop] at ho
      refine ih _ _ ?_ o ho
      intro o' ho'
      rcases List.mem_cons.mp ho' with rfl | h'
      · exact hop
      · exact hst o' h'
    · rw [if_neg hop] at ho
      by_cases hcl : isCloser c = true
      · rw [if_pos hcl] at ho
        cases hrm : removeFirstCompatC c st with
        | some st2 =>
          rw [hrm] at ho
          rcases removeFirstCompatC_split hrm with ⟨st1, o1, st3, hst13, hst2, -⟩
          refine ih _ _ ?_ o ho
          intro o' ho'
          refine hst o' ?_
          rw [hst13]
          rcases List.mem_append.mp (hst2 ▸ ho') with h' | h'
          · exact List.mem_append_left _ h'
          · exact List.mem_append_right _ (List.mem_cons_of_mem _ h')
        | none => rw [hrm] at ho; exact ih _ _ hst o ho
      · rw [if_neg hcl] at ho; exact ih _ _ hst o ho

theorem length_eq_sum_countKC :
    ∀ (st : List Char), (∀ o ∈ st, isOpener o = true) →
      st.length = countKC .par st + countKC .kag st + countKC .quo st := by
  intro st
  induction st with
  | nil => intro _; rfl
  | cons c st ih =>
    intro hst
    have hop : isOpener c = true := hst c (List.mem_cons_self _ _)
    rcases Option.isSome_iff_exists.mp (isOpener_iff_openK.mp hop) with ⟨k0, hk0⟩
    have ih' := ih (fun o ho => hst o (List.mem_cons_of_mem _ ho))
    rw [List.length_cons, countKC_cons, countKC_cons, countKC_cons, ih']
    cases k0 <;> rw [hk0] <;> simp <;> omega

/-- Re-scanning: the class-`k` pending-opener count of the final stack is the
counter fold of the scanned word started from the initial count. -/
theorem rescan_countKC (k : BKind) :
    ∀ (s st : List Char) (u : Nat),
      countKC k ((rescan s st u).1) = cfold k s (countKC k st) := by
  intro s
  induction s with
  | nil => intro st u; rfl
  | cons c rest ih =>
    intro st u
    rw [rescan, cfold]
    by_cases hop : isOpener c = true
    · rw [if_pos hop]
      rcases Option.isSome_iff_exists.mp (isOpener_iff_openK.mp hop) with ⟨k0, hk0⟩
      have hcl : closeK c = none := closeK_none_of_opener hop
      by_cases hk : openK c = some k
      · rw [if_pos hk, ih]
        congr 1
        rw [countKC_cons, if_pos hk]
        omega
      · rw [if_neg hk, if_neg (by rw [hcl]; simp), ih]
        congr 1
        rw [countKC_cons, if_neg hk]
        omega
    · rw [if_neg hop]
      have hopn : openK c = none := openK_none_of_neither hop
      by_cases hcl : isCloser c = true
      · rw [if_pos hcl]
        cases hrm : removeFirstCompatC c st with
        | some st2 =>
          have hred : (match some st2 with
              | some st2 => rescan rest st2 u
              | none => rescan rest st (u + 1)) = rescan rest st2 u := rfl
          rw [hred]
          rcases removeFirstCompatC_split hrm with ⟨st1, o, st3, hst13, hst2, hcp⟩
          rcases compatB_iff.mp hcp with ⟨k1, hok1, hck1⟩
          by_cases hk : closeK c = some k
          · rw [if_neg (by rw [hopn]; simp), if_pos hk, ih]
            congr 1
            have hkk : k1 = k := by
              rw [hck1] at hk
              exact Option.some_inj.mp hk
            subst hst13
            subst hst2
            rw [countKC_append, countKC_append, countKC_cons,
              if_pos (by rw [hok1, hkk])]
            omega
          · rw [if_neg (by rw [hopn]; simp), if_neg hk, ih]
            congr 1
            have hok : ¬ openK o = some k := by
              intro he
              rw [hok1] at he
              exact hk ((Option.some_inj.mp he) ▸ hck1)
            subst hst13
            subst hst2
            rw [countKC_append, countKC_append, countKC_cons, if_neg hok]
            omega
        | none =>
          have hred : (match (none : Option (List Char)) with
              | some st2 => rescan rest st2 u
              | none => rescan rest st (u + 1)) = rescan rest st (u + 1) := rfl
          rw [hred]
          by_cases hk : closeK c = some k
          · have hzero : countKC k st = 0 := by
              rw [countKC, List.length_eq_zero]
              refine List.filter_eq_nil_iff.mpr ?_
              intro o ho
              simp only [decide_eq_true_eq]
              intro hok
              have hcpo : compatB o c = true := compatB_iff.mpr ⟨k, hok, hk⟩
              rw [removeFirstCompatC_none hrm o ho] at hcpo
              simp at hcpo
            rw [if_neg (by rw [hopn]; simp), if_pos hk, ih, hzero]
          · rw [if_neg (by rw [hopn]; simp), if_neg hk, ih]
      · rw [if_neg hcl]
        have hcln : closeK c = none := closeK_none_of_neither hcl
        rw [if_neg (by rw [hopn]; simp), if_neg (by rw [hcln]; simp), ih]

theorem removeFirstCompat_split {c : Char} :
    ∀ {st st2 : List (Nat × Char)}, removeFirstCompat c st = some st2 →
      ∃ st1 o st3, st = st1 ++ o :: st3 ∧ st2 = st1 ++ st3 ∧ compatB o.2 c = true := by
  intro st
  induction st with
  | nil => intro st2 h; simp [removeFirstCompat] at h
  | cons e0 st ih =>
    intro st2 h
    rw [removeFirstCompat] at h
    by_cases hc : compatB e0.2 c = true
    · rw [if_pos hc] at h
      cases h
      exact ⟨[], e0, st, rfl, rfl, hc⟩
    · rw [if_neg hc] at h
      rcases Option.map_eq_some'.mp h with ⟨st2', h1, rfl⟩
      rcases ih h1 with ⟨st1, o, st3, rfl, rfl, hcp⟩
      exact ⟨e0 :: st1, o, st3, rfl, rfl, hcp⟩

theorem removeFirstCompat_none {c : Char} :
    ∀ {st : List (Nat × Char)}, removeFirstCompat c st = none →
      ∀ e ∈ st, compatB e.2 c = false := by
  intro st
  induction st with
  | nil => intro _ e he; simp at he
  | cons e0 st ih =>
    intro h e he
    rw [removeFirstCompat] at h
    by_cases hc : compatB e0.2 c = true
    · rw [if_pos hc] at h; exact absurd h (by simp)
    · rw [if_neg hc] at h
      rcases List.mem_cons.mp he with rfl | he'
      · exact Bool.eq_false_iff.mpr hc
      · cases hrm : removeFirstCompat c st with
        | some st2 => rw [hrm] at h; exact absurd h (by simp)
        | none => exact ih hrm e he'

theorem balScan_rp_mono :
    ∀ (l st : List (Nat × Char)) (rp : List Nat),
      ∀ j ∈ rp, j ∈ (balScan l st rp).2 := by
  intro l
  induction l with
  | nil => intro st rp j hj; exact hj
  | cons p rest ih =>
    intro st rp j hj
    obtain ⟨i, c⟩ := p
    rw [balScan]
    by_cases ho : isOpener c = true
    · rw [if_pos ho]; exact ih _ _ j hj
    · rw [if_neg ho]
      by_cases hcl : isCloser c = true
      · rw [if_pos hcl]
        by_cases hst : st.isEmpty = true
        · rw [if_pos hst]; exact ih _ _ j (List.mem_cons_of_mem _ hj)
        · rw [if_neg hst]
          cases hrm : removeFirstCompat c st with
          | some st2 => exact ih _ _ j hj
          | none => exact ih _ _ j hj
      · rw [if_neg hcl]; exact ih _ _ j hj

/-- Number of class-`k` entries of the stack `st` that are NOT in the final
stack `fs`, i.e. openers of the class matched during the remaining scan. -/
def mcount (k : BKind) (st fs : List (Nat × Char)) : Nat :=
  (st.filter (fun e => ¬ e ∈ fs ∧ openK e.2 = some k)).length

theorem mcount_self (k : BKind) (st : List (Nat × Char)) : mcount k st st = 0 := by
  rw [mcount, List.length_eq_zero]
  refine List.filter_eq_nil_iff.mpr ?_
  intro e he
  simp [he]

theorem mcount_cons (k : BKind) (e : Nat × Char) (st fs : List (Nat × Char)) :
    mcount k (e :: st) fs =
      (if ¬ e ∈ fs ∧ openK e.2 = some k then 1 else 0) + mcount k st fs := by
  by_cases h : ¬ e ∈ fs ∧ openK e.2 = some k
  · rw [if_pos h, mcount, mcount, List.filter_cons_of_pos (by simpa using h),
      List.length_cons]
    omega
  · rw [if_neg h, mcount, mcount, List.filter_cons_of_neg (by simpa using h)]
    omega

theorem mcount_append (k : BKind) (a b fs : List (Nat × Char)) :
    mcount k (a ++ b) fs = mcount k a fs + mcount k b fs := by
  rw [mcount, mcount, mcount, List.filter_append, List.length_append]

theorem outMap_cons (st : List (Nat × Char)) (rp : List Nat) (p : Nat × Char)
    (l : List (Nat × Char)) :
    outMap st rp (p :: l) =
      (if rp.contains p.1 || st.any (fun e => e.1 == p.1) then toAlt p.2 else p.2) ::
        outMap st rp l := rfl

/-- Main lemma for C1: the class-`k` counter fold over the replaced output of
the scan, started from the number of initial-stack entries of class `k` that
the rest of the scan matches away, ends at zero. -/
theorem balScan_out_cfold (k : BKind) :
    ∀ (l st : List (Nat × Char)) (rp : List Nat),
      List.Pairwise (fun a b => a.1 < b.1) l →
      (∀ e ∈ st, ∀ p ∈ l, e.1 < p.1) →
      (∀ j ∈ rp, ∀ p ∈ l, j < p.1) →
      (∀ e ∈ st, isOpener e.2 = true) →
      List.Pairwise (fun a b => a.1 > b.1) st →
      cfold k (outMap (balScan l st rp).1 (balScan l st rp).2 l)
        (mcount k st (balScan l st rp).1) = 0 := by
  intro l
  induction l with
  | nil =>
    intro st rp _ _ _ _ _
    rw [balScan]
    show mcount k st st = 0
    exact mcount_self k st
  | cons p rest ih =>
    intro st rp h1 h2 h3 h4 h5
    obtain ⟨i, c⟩ := p
    have hrg : ∀ q ∈ rest, i < q.1 := by
      intro q hq
      exact (List.pairwise_cons.mp h1).1 q hq
    have h1' : List.Pairwise (fun a b => a.1 < b.1) rest :=
      (List.pairwise_cons.mp h1).2
    by_cases ho : isOpener c = true
    · -- opener: push (i, c)
      have hS : balScan ((i, c) :: rest) st rp = balScan rest ((i, c) :: st) rp := by
        rw [balScan, if_pos ho]
      rw [hS, outMap_cons]
      have hIH := ih ((i, c) :: st) rp h1'
        (by
          intro e he q hq
          rcases List.mem_cons.mp he with rfl | he'
          · exact hrg q hq
          · exact h2 e he' q (List.mem_cons_of_mem _ hq))
        (by intro j hj q hq; exact h3 j hj q (List.mem_cons_of_mem _ hq))
        (by
          intro e he
          rcases List.mem_cons.mp he with rfl | he'
          · exact ho
          · exact h4 e he')
        (by
          rw [List.pairwise_cons]
          exact ⟨fun e he => h2 e he (i, c) (List.mem_cons_self _ _), h5⟩)
      have hirp : ¬ i ∈ (balScan rest ((i, c) :: st) rp).2 := by
        intro hmem
        rcases balScan_rp_mem rest ((i, c) :: st) rp i hmem with h' | ⟨c', hc1, -⟩
        · exact absurd (h3 i h' (i, c) (List.mem_cons_self _ _)) (lt_irrefl i)
        · exact absurd (hrg (i, c') hc1) (lt_irrefl i)
      have hcont : (balScan rest ((i, c) :: st) rp).2.contains i = false := by
        refine Bool.eq_false_iff.mpr (fun hc2 => hirp ?_)
        exact List.elem_iff.mp hc2
      by_cases hin : (i, c) ∈ (balScan rest ((i, c) :: st) rp).1
      · -- the opener stays unmatched: its position is replaced by a placeholder
        have hany : (balScan rest ((i, c) :: st) rp).1.any (fun e => e.1 == i) = true :=
          List.any_eq_true.mpr ⟨(i, c), hin, by simp⟩
        rw [hcont, hany]
        have hred : (if ((false : Bool) || true) = true then toAlt c else c) = toAlt c := rfl
        rw [hred]
        rw [cfold, if_neg (by rw [(openK_toAlt (Or.inl ho)).1]; simp),
          if_neg (by rw [(openK_toAlt (Or.inl ho)).2]; simp)]
        have hm : mcount k ((i, c) :: st) (balScan rest ((i, c) :: st) rp).1 =
            mcount k st (balScan rest ((i, c) :: st) rp).1 := by
          rw [mcount_cons, if_neg (by simp [hin])]
          omega
        rw [← hm]
        exact hIH
      · -- the opener is matched later: its character stays in the output
        have hany : (balScan rest ((i, c) :: st) rp).1.any (fun e => e.1 == i) = false := by
          rw [List.any_eq_false]
          intro e he
          rcases balScan_stack_mem rest ((i, c) :: st) rp e he with h' | h'
          · rcases List.mem_cons.mp h' with h'' | h''
            · intro _
              rw [h''] at he
              exact hin he
            · intro hbe
              rw [beq_iff_eq] at hbe
              have := h2 e h'' (i, c) (List.mem_cons_self _ _)
              omega
          · intro hbe
            rw [beq_iff_eq] at hbe
            have := hrg e h'
            omega
        rw [hcont, hany]
        have hred : (if ((false : Bool) || false) = true then toAlt c else c) = c := rfl
        rw [hred]
        by_cases hck : openK c = some k
        · rw [cfold, if_pos hck]
          have hm : mcount k ((i, c) :: st) (balScan rest ((i, c) :: st) rp).1 =
              mcount k st (balScan rest ((i, c) :: st) rp).1 + 1 := by
            rw [mcount_cons, if_pos ⟨hin, hck⟩]
            omega
          rw [hm] at hIH
          exact hIH
        · rw [cfold, if_neg hck,
            if_neg (by rw [closeK_none_of_opener ho]; simp)]
          have hm : mcount k ((i, c) :: st) (balScan rest ((i, c) :: st) rp).1 =
              mcount k st (balScan rest ((i, c) :: st) rp).1 := by
            rw [mcount_cons, if_neg (by simp [hck])]
            omega
          rw [← hm]
          exact hIH
    · by_cases hcl : isCloser c = true
      · by_cases hst : st.isEmpty = true
        · -- closer on empty stack: the closer's position is replaced
          have hstnil : st = [] := List.isEmpty_iff.mp hst
          subst hstnil
          have hS : balScan ((i, c) :: rest) [] rp = balScan rest [] (i :: rp) := by
            rw [balScan, if_neg ho, if_pos hcl, if_pos hst]
          rw [hS, outMap_cons]
          have hIH := ih [] (i :: rp) h1'
            (by intro e he; simp at he)
            (by
              intro j hj q hq
              rcases List.mem_cons.mp hj with rfl | hj'
              · exact hrg q hq
              · exact h3 j hj' q (List.mem_cons_of_mem _ hq))
            (by intro e he; simp at he)
            List.Pairwise.nil
          have hmem : i ∈ (balScan rest [] (i :: rp)).2 :=
            balScan_rp_mono rest [] (i :: rp) i (List.mem_cons_self _ _)
          have hcont : (balScan rest [] (i :: rp)).2.contains i = true :=
            List.elem_iff.mpr hmem
          rw [hcont]
          have hred : ∀ (b : Bool), (if ((true : Bool) || b) = true then toAlt c else c) = toAlt c := fun b => rfl
          rw [hred]
          rw [cfold, if_neg (by rw [(openK_toAlt (Or.inr hcl)).1]; simp),
            if_neg (by rw [(openK_toAlt (Or.inr hcl)).2]; simp)]
          exact hIH
        · cases hrm : removeFirstCompat c st with
          | some st2 =>
            -- closer matches: the class-k matched count of the stack drops by
            -- one exactly when the closer is of class k
            have hS : balScan ((i, c) :: rest) st rp = balScan rest st2 rp := by
              rw [balScan, if_neg ho, if_pos hcl, if_neg hst, hrm]
            rcases removeFirstCompat_split hrm with ⟨st1, o, st3, hst13, hst2, hcp⟩
            have hsub : List.Sublist st2 st := by
              rw [hst13, hst2]
              exact List.Sublist.append_left (List.sublist_cons_self o st3) st1
            have hmem2 : ∀ e ∈ st2, e ∈ st := fun e he => hsub.mem he
            have hIH := ih st2 rp h1'
              (by intro e he q hq; exact h2 e (hmem2 e he) q (List.mem_cons_of_mem _ hq))
              (by intro j hj q hq; exact h3 j hj q (List.mem_cons_of_mem _ hq))
              (fun e he => h4 e (hmem2 e he))
              (h5.sublist hsub)
            rw [hS, outMap_cons]
            have hirp : ¬ i ∈ (balScan rest st2 rp).2 := by
              intro hmem
              rcases balScan_rp_mem rest st2 rp i hmem with h' | ⟨c', hc1, -⟩
              · exact absurd (h3 i h' (i, c) (List.mem_cons_self _ _)) (lt_irrefl i)
              · exact absurd (hrg (i, c') hc1) (lt_irrefl i)
            have hcont : (balScan rest st2 rp).2.contains i = false :=
              Bool.eq_false_iff.mpr (fun hc2 => hirp (List.elem_iff.mp hc2))
            have hany : (balScan rest st2 rp).1.any (fun e => e.1 == i) = false := by
              rw [List.any_eq_false]
              intro e he
              rcases balScan_stack_mem rest st2 rp e he with h' | h'
              · have := h2 e (hmem2 e h') (i, c) (List.mem_cons_self _ _)
                simp only [beq_iff_eq]
                omega
              · have := hrg e h'
                simp only [beq_iff_eq]
                omega
            rw [hcont, hany]
            have hred : (if ((false : Bool) || false) = true then toAlt c else c) = c := rfl
            rw [hred]
            -- the removed opener o is in no later stack
            have honotin : ¬ o ∈ (balScan rest st2 rp).1 := by
              intro hmem
              rcases balScan_stack_mem rest st2 rp o hmem with h' | h'
              · have hpw : List.Pairwise (fun a b => a.1 > b.1) (st1 ++ o :: st3) := by
                  rwa [hst13] at h5
                rcases List.mem_append.mp (hst2 ▸ h') with h'' | h''
                · have := (List.pairwise_append.mp hpw).2.2 o h''
                    o (List.mem_cons_self _ _)
                  omega
                · have := List.pairwise_cons.mp (List.pairwise_append.mp hpw).2.1
                  exact absurd (this.1 o h'') (by omega)
              · have hlt := h2 o (by rw [hst13]; exact
                  List.mem_append_right _ (List.mem_cons_self _ _)) (i, c)
                  (List.mem_cons_self _ _)
                have := hrg o h'
                omega
            rcases compatB_iff.mp hcp with ⟨k1, hok1, hck1⟩
            by_cases hck : closeK c = some k
            · have hkk : k1 = k := by
                rw [hck1] at hck
                exact Option.some_inj.mp hck
              rw [cfold, if_neg (by rw [openK_none_of_closer hcl]; simp), if_pos hck]
              have hm : ∀ fs, ¬ o ∈ fs →
                  mcount k st fs = mcount k st2 fs + 1 := by
                intro fs ho2
                rw [hst13, hst2, mcount_append, mcount_append, mcount_cons,
                  if_pos ⟨ho2, by rw [hok1, hkk]⟩]
                omega
              rw [hm _ honotin]
              simpa using hIH
            · rw [cfold, if_neg (by rw [openK_none_of_closer hcl]; simp), if_neg hck]
              have hm : ∀ fs, mcount k st fs = mcount k st2 fs := by
                intro fs
                rw [hst13, hst2, mcount_append, mcount_append, mcount_cons,
                  if_neg (by
                    rintro ⟨-, hok⟩
                    rw [hok1] at hok
                    exact hck ((Option.some_inj.mp hok) ▸ hck1))]
                omega
              rw [hm]
              exact hIH
          | none =>
            -- closer with no compatible opener: left unchanged in the output
            have hS : balScan ((i, c) :: rest) st rp = balScan rest st rp := by
              rw [balScan, if_neg ho, if_pos hcl, if_neg hst, hrm]
            have hIH := ih st rp h1'
              (by intro e he q hq; exact h2 e he q (List.mem_cons_of_mem _ hq))
              (by intro j hj q hq; exact h3 j hj q (List.mem_cons_of_mem _ hq))
              h4 h5
            rw [hS, outMap_cons]
            have hirp : ¬ i ∈ (balScan rest st rp).2 := by
              intro hmem
              rcases balScan_rp_mem rest st rp i hmem with h' | ⟨c', hc1, -⟩
              · exact absurd (h3 i h' (i, c) (List.mem_cons_self _ _)) (lt_irrefl i)
              · exact absurd (hrg (i, c') hc1) (lt_irrefl i)
            have hcont : (balScan rest st rp).2.contains i = false :=
              Bool.eq_false_iff.mpr (fun hc2 => hirp (List.elem_iff.mp hc2))
            have hany : (balScan rest st rp).1.any (fun e => e.1 == i) = false := by
              rw [List.any_eq_false]
              intro e he
              rcases balScan_stack_mem rest st rp e he with h' | h'
              · have := h2 e h' (i, c) (List.mem_cons_self _ _)
                simp only [beq_iff_eq]
                omega
              · have := hrg e h'
                simp only [beq_iff_eq]
                omega
            rw [hcont, hany]
            have hred : (if ((false : Bool) || false) = true then toAlt c else c) = c := rfl
            rw [hred]
            by_cases hck : closeK c = some k
            · have hzero : mcount k st (balScan rest st rp).1 = 0 := by
                rw [mcount, List.length_eq_zero]
                refine List.filter_eq_nil_iff.mpr ?_
                intro e he
                simp only [decide_eq_true_eq]
                rintro ⟨-, hok⟩
                have hcpe : compatB e.2 c = true := compatB_iff.mpr ⟨k, hok, hck⟩
                rw [removeFirstCompat_none hrm e he] at hcpe
                simp at hcpe
              rw [cfold, if_neg (by rw [openK_none_of_closer hcl]; simp),
                if_pos hck, hzero]
              rw [hzero] at hIH
              simpa using hIH
            · rw [cfold, if_neg (by rw [openK_none_of_closer hcl]; simp), if_neg hck]
              exact hIH
      · -- neither an opener nor a closer: neutral character
        have hS : balScan ((i, c) :: rest) st rp = balScan rest st rp := by
          rw [balScan, if_neg ho, if_neg hcl]
        have hIH := ih st rp h1'
          (by intro e he q hq; exact h2 e he q (List.mem_cons_of_mem _ hq))
          (by intro j hj q hq; exact h3 j hj q (List.mem_cons_of_mem _ hq))
          h4 h5
        rw [hS, outMap_cons]
        have hirp : ¬ i ∈ (balScan rest st rp).2 := by
          intro hmem
          rcases balScan_rp_mem rest st rp i hmem with h' | ⟨c', hc1, -⟩
          · exact absurd (h3 i h' (i, c) (List.mem_cons_self _ _)) (lt_irrefl i)
          · exact absurd (hrg (i, c') hc1) (lt_irrefl i)
        have hcont : (balScan rest st rp).2.contains i = false :=
          Bool.eq_false_iff.mpr (fun hc2 => hirp (List.elem_iff.mp hc2))
        have hany : (balScan rest st rp).1.any (fun e => e.1 == i) = false := by
          rw [List.any_eq_false]
          intro e he
          rcases balScan_stack_mem rest st rp e he with h' | h'
          · have := h2 e h' (i, c) (List.mem_cons_self _ _)
            simp only [beq_iff_eq]
            omega
          · have := hrg e h'
            simp only [beq_iff_eq]
            omega
        rw [hcont, hany]
        have hred : (if ((false : Bool) || false) = true then toAlt c else c) = c := rfl
        rw [hred]
        rw [cfold, if_neg (by rw [openK_none_of_neither (by simpa using ho)]; simp),
          if_neg (by rw [closeK_none_of_neither hcl]; simp)]
        exact hIH

/-- **C1** (counterexample to the claim as stated): the claim demands that
re-scanning the output of `_balance` after placeholder substitution finds zero
unmatched openers AND zero unmatched closers.  On the input `"「)"` the closer
`)` meets a non-empty stack holding the incompatible opener `「`; the scan then
leaves the closer unchanged (only closers met on an EMPTY stack are replaced),
so `_balance "「)" = "χ)"` and the re-scan finds one unmatched closer. -/
theorem C1_counterexample :
    ¬ (unmatchedOpeners (_balance "「)".data) = 0 ∧
       unmatchedClosers (_balance "「)".data) = 0) := by
  decide

/-- **C1** (amended): the opener half of the claim holds for every input text:
re-scanning the `_balance` output after placeholder substitution finds zero
unmatched openers among （ ( 「 “, because every opener left on the stack at the
end of the scan has been replaced by its per-symbol placeholder. -/
theorem C1_amended (t : List Char) : unmatchedOpeners (_balance t) = 0 := by
  have hop : ∀ o ∈ (rescan (_balance t) [] 0).1, isOpener o = true :=
    rescan_stack_opener (_balance t) [] 0 (by intro o ho; cases ho)
  have hlen := length_eq_sum_countKC (rescan (_balance t) [] 0).1 hop
  have hk : ∀ k : BKind, countKC k (rescan (_balance t) [] 0).1 = 0 := by
    intro k
    have h1 := rescan_countKC k (_balance t) [] 0
    have h2 := balScan_out_cfold k t.enum [] []
      (by
        have h := List.pairwise_lt_range t.length
        rw [← List.enum_map_fst t, List.pairwise_map] at h
        exact h)
      (by intro e he; cases he)
      (by intro j hj; cases hj)
      (by intro e he; cases he)
      List.Pairwise.nil
    rw [h1]
    exact h2
  rw [unmatchedOpeners, hlen, hk, hk, hk]

end ECIFR
